import Mathlib

/-!
Verification of the concurrent multipart-upload engine of the MinIO Raycast
extension (file `upload-file` command, function `handleSubmit` and its nested
helpers).  The TypeScript source is shallowly embedded:

* pure computations (part planning, the effective-part-size clamp, the
  upload-route dispatch, the retry/backoff recursion, progress percentage)
  become Lean functions;
* the concurrent worker pool, the cancellation flag, the failure loop and the
  finalize/abort decision become an explicit scheduler-indexed small-step
  machine (`stepM` / `runC`): one step corresponds to one macrotask of the
  Node event loop together with the microtask drain that follows it, which is
  the granularity at which the JavaScript code interleaves.  A `Choice` is a
  scheduler decision (which worker makes progress, what the network returns,
  when the user cancels or answers the retry/abort dialog); a disabled choice
  is skipped, so every choice list denotes a valid interleaving.

Numbers are embedded exactly: byte counts as `Nat`, the preference values
(which `parseInt` may make negative) as `Int`, and the progress ratio, which
the source computes in floating point, as `Rat` (`Math.round` becomes
`jsRound`, round-half-up, which agrees with the float computation at the
magnitudes involved here).
-/
/-- A planned part: `interface PartInfo { partNumber; start; end }` in the
source.  The exclusive upper bound `end` is a Lean keyword, so it is named
`stop` here. -/
structure PartInfo where
  partNumber : Nat
  start : Nat
  stop : Nat
deriving DecidableEq, Repr

/-- Byte length of a part, `part.end - part.start` in the source. -/
def partLen (p : PartInfo) : Nat := p.stop - p.start

/-- Default used only to totalise list lookups. -/
def dummyPart : PartInfo := ⟨0, 0, 0⟩

/-- A successful part upload, `{ part: number; etag: string }` in the source. -/
structure PartResult where
  part : Nat
  etag : String
deriving DecidableEq, Repr

/-- `Math.ceil(fileSize / partSize)`, the `totalParts` of the source. -/
def totalPartsFor (fileSize partSize : Nat) : Nat :=
  (fileSize + partSize - 1) / partSize

/-- The part-planning loop of `handleSubmit`:
`for i in 0..totalParts-1: start = i*partSize; end = min(start+partSize, fileSize);
 parts.push({partNumber: i+1, start, end})`. -/
def planParts (fileSize partSize : Nat) : List PartInfo :=
  (List.range (totalPartsFor fileSize partSize)).map
    (fun i => { partNumber := i + 1, start := i * partSize,
                stop := min (i * partSize + partSize) fileSize })

/-- Insert into a list sorted by part number; together with `sortParts` this
models `uploadedParts.sort((a, b) => a.part - b.part)` (a stable comparison
sort ordering ascending by `part`). -/
def insertPart (r : PartResult) : List PartResult → List PartResult
  | [] => [r]
  | x :: xs => if r.part ≤ x.part then r :: x :: xs else x :: insertPart r xs

/-- Stable sort by ascending part number, the model of the source's
`uploadedParts.sort((a, b) => a.part - b.part)`. -/
def sortParts : List PartResult → List PartResult
  | [] => []
  | x :: xs => insertPart x (sortParts xs)

/-- The store calls the upload route can open with. -/
inductive StoreCall where
  | fPutObject
  | initiateMultipartUpload
deriving DecidableEq, Repr

/-- `Math.max(5, parseInt(preferences.partSize || "5")) * 1024 * 1024`: the
configured part size in MB (possibly small or negative after `parseInt`) is
clamped below by 5 and scaled to bytes.  There is no rejection path. -/
def effectivePartSizeBytes (prefPartSizeMB : Int) : Int :=
  (max 5 prefPartSizeMB) * 1024 * 1024

/-- The dispatch in `handleSubmit`: `if (fileSize < partSize)` use
`minioClient.fPutObject` (single shot), else enter the multipart path whose
first store call is `initiateNewMultipartUpload`. -/
def uploadRoute (fileSize eff : Int) : List StoreCall :=
  if fileSize < eff then [StoreCall.fPutObject]
  else [StoreCall.initiateMultipartUpload]

/-- One invocation chain of `uploadPartWithRetry(part, retriesLeft)` on the
non-cancelled path, as a function of the outcome of each attempt
(`attempt i` is what the `i`-th call of `uploadPart` does: `.ok etag` or
`.error message`).  Returns `(number of attempts made, backoff delays waited
in ms in order, final result)`.  Mirrors the source exactly: on failure with
`retriesLeft > 0` it waits `(maxRetries - retriesLeft + 1) * 1000` ms and
recurses with `retriesLeft - 1`; with `retriesLeft = 0` it rethrows the last
error. -/
def uploadPartWithRetryFn (maxRetries : Nat) (attempt : Nat → Except String String) :
    Nat → Nat → Nat × (List Nat × Except String String)
  | retriesLeft, idx =>
    match attempt idx with
    | Except.ok e => (1, ([], Except.ok e))
    | Except.error msg =>
      match retriesLeft with
      | 0 => (1, ([], Except.error msg))
      | Nat.succ r' =>
        let d := (maxRetries - Nat.succ r' + 1) * 1000
        let rest := uploadPartWithRetryFn maxRetries attempt r' (idx + 1)
        (rest.1 + 1, (d :: rest.2.1, rest.2.2))

/-- JavaScript `Math.round` on a nonnegative rational: round half away from
zero, i.e. `⌊q + 1/2⌋`. -/
def jsRound (q : ℚ) : ℤ := Int.floor (q + 1/2)

/-- `updateTotalProgress` of the source:
`Math.round((totalUploaded / fileSize) * 100)`. -/
def reportedPercentage (fileSize totalUploaded : Nat) : ℤ :=
  jsRound ((totalUploaded : ℚ) / (fileSize : ℚ) * 100)

/-- `partProgress.reduce((sum, p) => sum + p, 0)` of `updateTotalProgress`. -/
def totalUploadedOf (counters : List Nat) : Nat := counters.foldl (· + ·) 0

/-!
## The concurrent upload machine

State of one nested-upload invocation of `handleSubmit`, from just after
`initiateNewMultipartUpload` returned until `completeMultipartUpload`,
`abortMultipartUpload`-then-throw, or a thrown error.

Event-loop granularity.  Each transition of `stepM` is one macrotask of the
Node event loop (an HTTP response/error event, a socket `drain` event, a
`setTimeout` firing, the UI action that sets the cancel flag, the resolution
of the `confirmAlert` promise) together with the microtask drain it triggers.
In particular a worker's `uploadedParts.push(result)` runs in the microtask
drain of the macrotask in which the part's HTTP response arrived, so it is
atomic with that response with respect to the `cancelUpload` handler; and
once `cancelUpload` has run, every active request has been destroyed, so no
response for a previously started request can arrive afterwards.  This is why
`attemptSucceed` carries a `cancelled = false` guard.

A worker promise survives the round that spawned it: `Promise.all` settles at
the first rejection, after which the coordinator proceeds (failure snapshot,
dialog, even a whole new round) while the old workers are still draining
their in-flight parts and may push results or pull new work from a rebuilt
queue.  The machine therefore keeps every worker ever spawned in `workers`,
and `curStart` marks where the workers of the current round begin (the ones
the current `Promise.all` is watching).
-/
/-- Status of one `worker()` promise.  `presigning` is the stretch of
`uploadPart` before the HTTP request exists (the `presignedUrl` await, with
the cancellation checks on both sides of it); `attempting` is an open HTTP
request with `uploaded` bytes of the part written so far; `backoff` is the
`setTimeout` wait of `uploadPartWithRetry`.  `exitedOk` is a worker whose
loop returned (promise fulfilled), `exitedThrown` one whose promise
rejected. -/
inductive WStatus where
  | idle
  | presigning (p : PartInfo) (retriesLeft : Nat)
  | attempting (p : PartInfo) (retriesLeft : Nat) (uploaded : Nat)
  | backoff (p : PartInfo) (retriesLeft : Nat)
  | exitedOk
  | exitedThrown
deriving DecidableEq, Repr

/-- Coordinator position in `handleSubmit`'s multipart block. -/
inductive Phase where
  | running        -- awaiting `Promise.all` inside `runUploadWorkers`
  | prompting      -- awaiting `confirmAlert` in the failure loop
  | abortingUser   -- user declined: about to call `abortMultipartUpload`
  | abortingCancel -- cancel flag seen: about to call `abortMultipartUpload`
  | completing     -- about to call `completeMultipartUpload`
  | abortedExit    -- threw "Upload aborted by user"
  | cancelledExit  -- threw "Upload cancelled"
  | completed      -- `completeMultipartUpload` was called
deriving DecidableEq, Repr

/-- The per-upload constants: the planned parts, `maxRetries`, `concurrency`
and the file size. -/
structure Ctx where
  parts : List PartInfo
  maxRetries : Nat
  concurrency : Nat
  fileSize : Nat
deriving DecidableEq, Repr

/-- Machine state.  `queue` is the shared mutable `queue` array,
`uploadedParts` the shared results array (in push order), `partProgress` the
`partProgress` array indexed by `partNumber - 1`, `cancelled` the
`uploadCancelledRef`, `uploadError` whether the `uploadError` variable is
non-null.  `failedSnapshot` and `lastPrompt` record the `failedParts` list
and the `(completedPartsCount, totalParts, failedPartsCount)` triple computed
when the failure dialog was opened.  `completionSrc` records the
`uploadedParts` array at the moment `completeMultipartUpload` was invoked and
`completionArg` the (sorted) list passed to it. -/
structure MState where
  queue : List PartInfo
  uploadedParts : List PartResult
  partProgress : List Nat
  cancelled : Bool
  uploadError : Bool
  workers : List WStatus
  curStart : Nat
  phase : Phase
  failedSnapshot : List PartInfo
  lastPrompt : Option (Nat × Nat × Nat)
  abortCalls : Nat
  completeCalls : Nat
  completionSrc : Option (List PartResult)
  completionArg : Option (List PartResult)
deriving DecidableEq, Repr

/-- Initial state: queue holds all parts, progress all zero, and
`min(concurrency, max(totalParts, 1))` idle workers are spawned (the
`workerCount` computation of `runUploadWorkers` on the first round, where the
queue holds every part). -/
def initState (c : Ctx) : MState where
  queue := c.parts
  uploadedParts := []
  partProgress := List.replicate c.parts.length 0
  cancelled := false
  uploadError := false
  workers := List.replicate (min c.concurrency (max c.parts.length 1)) WStatus.idle
  curStart := 0
  phase := Phase.running
  failedSnapshot := []
  lastPrompt := none
  abortCalls := 0
  completeCalls := 0
  completionSrc := none
  completionArg := none

/-- The part a worker currently holds, if any. -/
def heldPart : WStatus → Option PartInfo
  | WStatus.presigning p _ => some p
  | WStatus.attempting p _ _ => some p
  | WStatus.backoff p _ => some p
  | _ => none

/-- `partProgress[part.partNumber - 1] = v`. -/
def setCounter (s : MState) (pn v : Nat) : MState :=
  { s with partProgress := s.partProgress.set (pn - 1) v }

/-- `uploadedParts.map(p => p.part)`, the basis of `completedPartNumbers`. -/
def completedNums (s : MState) : List Nat := s.uploadedParts.map (fun r => r.part)

/-- `parts.filter(p => !completedPartNumbers.has(p.partNumber))`. -/
def failedListOf (c : Ctx) (s : MState) : List PartInfo :=
  c.parts.filter (fun p => !((completedNums s).contains p.partNumber))

/-- The workers the current round's `Promise.all` is watching. -/
def curWorkers (s : MState) : List WStatus := s.workers.drop s.curStart

/-- Whether the current `Promise.all(workers)` has settled: it fulfills when
every watched worker fulfilled and rejects as soon as one rejected. -/
def roundSettled (s : MState) : Bool :=
  (curWorkers s).all (fun w => w == WStatus.exitedOk)
    || (curWorkers s).any (fun w => w == WStatus.exitedThrown)

/-- Worker promise has settled. -/
def isExited : WStatus → Bool
  | WStatus.exitedOk => true
  | WStatus.exitedThrown => true
  | _ => false

/-- Number of unsettled workers of the current round. -/
def pendingCount (s : MState) : Nat :=
  ((curWorkers s).filter (fun w => !isExited w)).length

/-- Observable events, for stating temporal properties of a run. -/
inductive Label where
  | popped (pn : Nat)            -- queue.shift() returned this part
  | attemptStart (pn : Nat)      -- the HTTP PUT for this part was created
  | progressed (pn : Nat) (upto : Nat) -- partProgress[pn-1] advanced to upto
  | resultAdded (pn : Nat)       -- uploadedParts.push for this part
  | attemptFailRetry (pn : Nat)  -- attempt failed, retries left: progress reset, backoff scheduled
  | attemptFailFinal (pn : Nat)  -- attempt failed, retries exhausted: uploadError recorded
  | retryResumed (pn : Nat)      -- backoff timer fired, retry call entered uploadPart
  | workerCancelled (i : Nat)    -- worker promise rejected on the cancel path
  | workerExited (i : Nat)       -- worker loop returned normally
  | cancelSet                    -- cancelUpload ran: flag set, live sockets destroyed
  | roundEnded                   -- Promise.all settled, coordinator resumed
  | promptRetry                  -- user chose "Retry Failed Parts"
  | promptAbort                  -- user chose "Abort Upload"
  | abortCall                    -- abortMultipartUpload invoked
  | completeCall                 -- completeMultipartUpload invoked
deriving DecidableEq, Repr

/-- Scheduler decisions. -/
inductive Choice where
  | pop (i : Nat)
  | presignOk (i : Nat)
  | presignFail (i : Nat)
  | presignCancelled (i : Nat)
  | writeProgress (i : Nat) (bytes : Nat)
  | attemptSucceed (i : Nat) (etag : String)
  | attemptFail (i : Nat)
  | attemptCancelledClean (i : Nat)
  | attemptCancelledErr (i : Nat)
  | backoffEnd (i : Nat)
  | workerExit (i : Nat)
  | cancel
  | roundEnd
  | decideRetry
  | decideAbort
  | doAbort
  | doComplete
deriving DecidableEq, Repr

/-- One macrotask-step of the system; `none` when the choice is not enabled.

* `pop i`: loop head of `worker()` with a nonempty queue, no cancel, no
  recorded error: shift a part and call `uploadPartWithRetry` → `uploadPart`,
  which starts the `presignedUrl` await.
* `presignOk i`: the presign await resolved with the flag clear; the Promise
  executor's cancel check passes and the HTTP request is created (the attempt
  starts).
* `presignFail i`: the presign await (or anything before the request) rejected
  with a non-cancel error: handled by `uploadPartWithRetry`'s catch — reset
  the part's progress and schedule a backoff retry, or, with no retries left,
  record `uploadError` and reject the worker promise.
* `presignCancelled i`: the flag was set during the presign await; the entry
  or executor check throws "Upload cancelled", which the worker rethrows.
* `writeProgress i b`: a `drain` event: `writeChunk` (flag clear) writes more
  bytes, `uploaded = min(uploaded + b, partSize)`, and stores it in
  `partProgress[partNumber - 1]`.
* `attemptSucceed i e`: the 2xx response arrived (only possible with the flag
  clear and the body fully written): push `{part, etag}` and return to the
  loop head.
* `attemptFail i`: response with bad status, or a network error, flag clear:
  like `presignFail`.
* `attemptCancelledClean i`: flag set while the request was open; `writeChunk`
  rejects "Upload cancelled" (or `req.destroy` from `cancelUpload` surfaces it
  there); the worker rethrows and its promise rejects without recording
  `uploadError`.
* `attemptCancelledErr i`: flag set while the request was open and the
  destroyed socket surfaced as a plain network error: `uploadPartWithRetry`
  rethrows it without retrying (flag is set) and the worker records it in
  `uploadError` before rejecting.
* `backoffEnd i`: the backoff `setTimeout` fired; `uploadPartWithRetry` calls
  `uploadPart` again, whose entry check either throws "Upload cancelled"
  (flag set — worker promise rejects) or starts the next presign await.
* `workerExit i`: loop head with the guard
  `queue.length > 0 && !cancelled && !uploadError` false: the worker returns.
* `cancel`: the Cancel Upload action: set the flag, destroy live requests.
* `roundEnd`: the current round's `Promise.all` settled and `runUploadWorkers`
  returned: with the flag set, fall through the failure loop into the
  cancelled-abort branch; otherwise succeed (no error and empty queue, or no
  failed parts) into `completing`, or open the failure dialog, snapshotting
  `failedParts` and the count triple.
* `decideRetry` / `decideAbort`: the dialog resolved.  Retry rebuilds the
  queue from the snapshot, zeroes those parts' progress, clears `uploadError`
  (done at the top of `runUploadWorkers`) and spawns
  `min(concurrency, max(queue.length, 1))` fresh workers.
* `doAbort` / `doComplete`: the terminal store call; completion sorts
  `uploadedParts` by part number. -/
def stepM (c : Ctx) (s : MState) : Choice → Option (MState × Label)
  | Choice.pop i =>
    match s.workers.get? i, s.queue with
    | some WStatus.idle, p :: rest =>
      if s.cancelled || s.uploadError then none
      else some ({ s with
                   queue := rest,
                   workers := s.workers.set i (WStatus.presigning p c.maxRetries) },
                 Label.popped p.partNumber)
    | _, _ => none
  | Choice.presignOk i =>
    match s.workers.get? i with
    | some (WStatus.presigning p r) =>
      if s.cancelled then none
      else some ({ s with workers := s.workers.set i (WStatus.attempting p r 0) },
                 Label.attemptStart p.partNumber)
    | _ => none
  | Choice.presignFail i =>
    match s.workers.get? i with
    | some (WStatus.presigning p r) =>
      if s.cancelled then none
      else match r with
        | 0 => some ({ s with
                       uploadError := true,
                       workers := s.workers.set i WStatus.exitedThrown },
                     Label.attemptFailFinal p.partNumber)
        | Nat.succ r' =>
          some ({ setCounter s p.partNumber 0 with
                  workers := s.workers.set i (WStatus.backoff p r') },
                Label.attemptFailRetry p.partNumber)
    | _ => none
  | Choice.presignCancelled i =>
    match s.workers.get? i with
    | some (WStatus.presigning _ _) =>
      if s.cancelled then
        some ({ s with workers := s.workers.set i WStatus.exitedThrown },
              Label.workerCancelled i)
      else none
    | _ => none
  | Choice.writeProgress i b =>
    match s.workers.get? i with
    | some (WStatus.attempting p r u) =>
      if s.cancelled then none
      else if u < partLen p && 0 < b then
        let u' := min (u + b) (partLen p)
        some ({ setCounter s p.partNumber u' with
                workers := s.workers.set i (WStatus.attempting p r u') },
              Label.progressed p.partNumber u')
      else none
    | _ => none
  | Choice.attemptSucceed i e =>
    match s.workers.get? i with
    | some (WStatus.attempting p _ u) =>
      if s.cancelled then none
      else if u = partLen p then
        some ({ s with
                uploadedParts := s.uploadedParts ++ [{ part := p.partNumber, etag := e }],
                workers := s.workers.set i WStatus.idle },
              Label.resultAdded p.partNumber)
      else none
    | _ => none
  | Choice.attemptFail i =>
    match s.workers.get? i with
    | some (WStatus.attempting p r _) =>
      if s.cancelled then none
      else match r with
        | 0 => some ({ s with
                       uploadError := true,
                       workers := s.workers.set i WStatus.exitedThrown },
                     Label.attemptFailFinal p.partNumber)
        | Nat.succ r' =>
          some ({ setCounter s p.partNumber 0 with
                  workers := s.workers.set i (WStatus.backoff p r') },
                Label.attemptFailRetry p.partNumber)
    | _ => none
  | Choice.attemptCancelledClean i =>
    match s.workers.get? i with
    | some (WStatus.attempting _ _ _) =>
      if s.cancelled then
        some ({ s with workers := s.workers.set i WStatus.exitedThrown },
              Label.workerCancelled i)
      else none
    | _ => none
  | Choice.attemptCancelledErr i =>
    match s.workers.get? i with
    | some (WStatus.attempting _ _ _) =>
      if s.cancelled then
        some ({ s with
                uploadError := true,
                workers := s.workers.set i WStatus.exitedThrown },
              Label.workerCancelled i)
      else none
    | _ => none
  | Choice.backoffEnd i =>
    match s.workers.get? i with
    | some (WStatus.backoff p r) =>
      if s.cancelled then
        some ({ s with workers := s.workers.set i WStatus.exitedThrown },
              Label.workerCancelled i)
      else
        some ({ s with workers := s.workers.set i (WStatus.presigning p r) },
              Label.retryResumed p.partNumber)
    | _ => none
  | Choice.workerExit i =>
    match s.workers.get? i with
    | some WStatus.idle =>
      if s.queue.isEmpty || s.cancelled || s.uploadError then
        some ({ s with workers := s.workers.set i WStatus.exitedOk },
              Label.workerExited i)
      else none
    | _ => none
  | Choice.cancel =>
    if s.cancelled then none
    else some ({ s with cancelled := true }, Label.cancelSet)
  | Choice.roundEnd =>
    if s.phase == Phase.running && roundSettled s then
      if s.cancelled then
        some ({ s with phase := Phase.abortingCancel }, Label.roundEnded)
      else if !s.uploadError && s.queue.isEmpty then
        some ({ s with phase := Phase.completing }, Label.roundEnded)
      else
        let failed := failedListOf c s
        if failed.isEmpty then
          some ({ s with phase := Phase.completing }, Label.roundEnded)
        else
          some ({ s with
                  phase := Phase.prompting, failedSnapshot := failed,
                  lastPrompt := some (s.uploadedParts.length, c.parts.length, failed.length) },
                Label.roundEnded)
    else none
  | Choice.decideRetry =>
    if s.phase == Phase.prompting then
      let s1 := s.failedSnapshot.foldl (fun acc p => setCounter acc p.partNumber 0) s
      some ({ s1 with
              queue := s.failedSnapshot, uploadError := false,
              phase := Phase.running, curStart := s.workers.length,
              workers := s.workers ++
                List.replicate (min c.concurrency (max s.failedSnapshot.length 1)) WStatus.idle },
            Label.promptRetry)
    else none
  | Choice.decideAbort =>
    if s.phase == Phase.prompting then
      some ({ s with phase := Phase.abortingUser }, Label.promptAbort)
    else none
  | Choice.doAbort =>
    if s.phase == Phase.abortingUser then
      some ({ s with abortCalls := s.abortCalls + 1, phase := Phase.abortedExit },
            Label.abortCall)
    else if s.phase == Phase.abortingCancel then
      some ({ s with abortCalls := s.abortCalls + 1, phase := Phase.cancelledExit },
            Label.abortCall)
    else none
  | Choice.doComplete =>
    if s.phase == Phase.completing then
      some ({ s with
              completeCalls := s.completeCalls + 1,
              completionSrc := some s.uploadedParts,
              completionArg := some (sortParts s.uploadedParts),
              phase := Phase.completed },
            Label.completeCall)
    else none

/-- Run a list of scheduler choices; disabled choices are skipped.  Returns
the final state and the labels of the steps that fired, in order. -/
def runC (c : Ctx) : MState → List Choice → MState × List Label
  | s, [] => (s, [])
  | s, ch :: rest =>
    match stepM c s ch with
    | none => runC c s rest
    | some (s', l) =>
      let r := runC c s' rest
      (r.1, l :: r.2)

/-- Context built from the planner, as in the source. -/
def mkCtx (fileSize partSize maxRetries concurrency : Nat) : Ctx where
  parts := planParts fileSize partSize
  maxRetries := maxRetries
  concurrency := concurrency
  fileSize := fileSize

/-!
## Facts about the completion sort
-/
/-- Ordering used by the completion call's comparator. -/
def partLe (a b : PartResult) : Prop := a.part ≤ b.part

/-!
## Invariants of the upload machine
-/
/-- The part at index `partNumber - 1` of the plan is the part itself: true of
every context the source builds (its `parts` array is the planner's output). -/
def wfCtx (c : Ctx) : Prop :=
  ∀ p ∈ c.parts, p.partNumber - 1 < c.parts.length
    ∧ c.parts.getD (p.partNumber - 1) dummyPart = p ∧ 1 ≤ p.partNumber

/-- A worker holds only planned parts. -/
def heldOkB (c : Ctx) (w : WStatus) : Bool :=
  match heldPart w with
  | some p => decide (p ∈ c.parts)
  | none => true

/-- State invariant: the progress array has one cell per planned part, each
cell bounded by its part's byte length; queue, snapshot and workers hold only
planned parts; the `abortMultipartUpload` / `completeMultipartUpload` call
counts are determined by the phase; and the completion argument is the sorted
image of the completion-time results array. -/
def MInv (c : Ctx) (s : MState) : Prop :=
  s.partProgress.length = c.parts.length
  ∧ (∀ j, j < c.parts.length → s.partProgress.getD j 0 ≤ partLen (c.parts.getD j dummyPart))
  ∧ (∀ p ∈ s.queue, p ∈ c.parts)
  ∧ s.workers.all (heldOkB c) = true
  ∧ (∀ p ∈ s.failedSnapshot, p ∈ c.parts)
  ∧ s.abortCalls = (if s.phase = Phase.abortedExit ∨ s.phase = Phase.cancelledExit then 1 else 0)
  ∧ s.completeCalls = (if s.phase = Phase.completed then 1 else 0)
  ∧ s.completionArg = s.completionSrc.map sortParts
  ∧ (s.phase = Phase.completed → s.completionSrc.isSome = true)

instance MInv.decidable (c : Ctx) (s : MState) : Decidable (MInv c s) := by
  unfold MInv
  infer_instance

/-!
## Cancellation
-/
/-- Labels marking a new upload attempt being started, new work pulled, or a
result added to the completed set. -/
def startsOrAdds : Label → Bool
  | Label.popped _ => true
  | Label.attemptStart _ => true
  | Label.resultAdded _ => true
  | _ => false

/-- After a cancellation observed in phase `running`, the coordinator can only
move `running → abortingCancel → cancelledExit`. -/
def cancelFunnel (ph : Phase) : Prop :=
  ph = Phase.running ∨ ph = Phase.abortingCancel ∨ ph = Phase.cancelledExit

/-- The scheduler decision that lets a given unsettled worker observe the
cancel flag and settle (exit or reject). -/
def closeChoice (i : Nat) : WStatus → Choice
  | WStatus.idle => Choice.workerExit i
  | WStatus.presigning _ _ => Choice.presignCancelled i
  | WStatus.attempting _ _ _ => Choice.attemptCancelledClean i
  | WStatus.backoff _ _ => Choice.backoffEnd i
  | _ => Choice.workerExit i

/-!
## Claim theorems
-/
/-- A full run of the multipart machine from the state just after
`initiateNewMultipartUpload`, with the context the source builds. -/
def runFromStart (fileSize partSize maxRetries concurrency : Nat)
    (choices : List Choice) : MState × List Label :=
  runC (mkCtx fileSize partSize maxRetries concurrency)
    (initState (mkCtx fileSize partSize maxRetries concurrency)) choices

/-- A run in which the single part uploads cleanly and completion happens. -/
def successSchedule : List Choice :=
  [Choice.pop 0, Choice.presignOk 0, Choice.writeProgress 0 4,
   Choice.attemptSucceed 0 "etag1", Choice.workerExit 0, Choice.roundEnd,
   Choice.doComplete]

/-- Whether a label records a part being pulled from the queue. -/
def isPoppedLabel : Label → Bool
  | Label.popped _ => true
  | _ => false

/-- The interleaving exhibiting the early-failure snapshot race of the
failure loop, on a 3-part upload (fileSize 12, partSize 4, maxRetries 0,
concurrency 2).  Round 1: worker 0's part 1 fails for good (the round's
`Promise.all` rejects and the failure dialog opens with part 2 still in
flight), then part 2's response lands and is pushed during the dialog; the
user retries, which re-queues parts 1, 2 and 3 from the stale snapshot.
Round 2: part 1 fails again while part 2 is uploaded a second time; part 3
is never reached before the round settles. -/
def c4Schedule : List Choice :=
  [Choice.pop 0, Choice.pop 1, Choice.presignOk 0, Choice.presignOk 1,
   Choice.attemptFail 0, Choice.roundEnd,
   Choice.writeProgress 1 4, Choice.attemptSucceed 1 "etagA", Choice.workerExit 1,
   Choice.decideRetry,
   Choice.pop 2, Choice.presignOk 2, Choice.pop 3, Choice.presignOk 3,
   Choice.attemptFail 2, Choice.writeProgress 3 4, Choice.attemptSucceed 3 "etagB",
   Choice.workerExit 3, Choice.roundEnd]

/-- The interleaving for the worker-loop guard: worker 0's part 1 fails for
good (recording `uploadError`), the round settles, and worker 1 — after
finishing its in-flight part 2 — exits at the loop head without ever popping
part 3, which stays in the queue when the failure dialog opens. -/
def c5Schedule : List Choice :=
  [Choice.pop 0, Choice.pop 1, Choice.presignOk 0, Choice.presignOk 1,
   Choice.attemptFail 0, Choice.roundEnd,
   Choice.writeProgress 1 4, Choice.attemptSucceed 1 "etagA", Choice.workerExit 1]

/-!
## Facts about the part planner
-/
theorem totalPartsFor_mul_ge (fileSize partSize : Nat) (hps : 0 < partSize) :
    fileSize ≤ totalPartsFor fileSize partSize * partSize := by
  unfold totalPartsFor
  have hdm := Nat.div_add_mod (fileSize + partSize - 1) partSize
  have hlt : (fileSize + partSize - 1) % partSize < partSize := Nat.mod_lt _ hps
  have hcomm : ((fileSize + partSize - 1) / partSize) * partSize
      = partSize * ((fileSize + partSize - 1) / partSize) := Nat.mul_comm _ _
  omega

theorem totalPartsFor_pos (fileSize partSize : Nat) (hfs : 0 < fileSize)
    (hps : 0 < partSize) : 0 < totalPartsFor fileSize partSize := by
  unfold totalPartsFor
  have h1 : 1 ≤ (fileSize + partSize - 1) / partSize := by
    rw [Nat.le_div_iff_mul_le hps]
    omega
  omega

theorem mul_lt_of_lt_totalPartsFor (fileSize partSize i : Nat) (hps : 0 < partSize)
    (hi : i < totalPartsFor fileSize partSize) : i * partSize < fileSize := by
  unfold totalPartsFor at hi
  have h1 : i + 1 ≤ (fileSize + partSize - 1) / partSize := hi
  rw [Nat.le_div_iff_mul_le hps] at h1
  have h2 : i * partSize + partSize = (i + 1) * partSize := (Nat.succ_mul i partSize).symm
  omega

theorem planParts_length (fileSize partSize : Nat) :
    (planParts fileSize partSize).length = totalPartsFor fileSize partSize := by
  simp [planParts]

theorem planParts_getD (fileSize partSize i : Nat)
    (hi : i < totalPartsFor fileSize partSize) :
    (planParts fileSize partSize).getD i dummyPart
      = { partNumber := i + 1, start := i * partSize,
          stop := min (i * partSize + partSize) fileSize } := by
  unfold planParts
  rw [List.getD_eq_getElem?_getD, List.getElem?_map, List.getElem?_range hi]
  rfl

theorem div_index_unique (partSize b j : Nat) (hps : 0 < partSize)
    (h1 : j * partSize ≤ b) (h2 : b < j * partSize + partSize) : j = b / partSize := by
  have hle : j ≤ b / partSize := (Nat.le_div_iff_mul_le hps).mpr h1
  have hlt : b / partSize < j + 1 := by
    rw [Nat.div_lt_iff_lt_mul hps]
    have : (j + 1) * partSize = j * partSize + partSize := Nat.succ_mul j partSize
    omega
  omega

/-- C1.  For positive `fileSize` and `partSize`, `planParts` produces
`ceil(fileSize / partSize)` parts with 1-based contiguous part numbers; each
part is the planned `[i*partSize, min(i*partSize + partSize, fileSize))`
range and is nonempty; consecutive ranges are contiguous (`stop i = start
(i+1)`); the first range starts at 0 and the last ends at `fileSize`; and
every byte position below `fileSize` lies in exactly one part, so the ranges
are non-overlapping and exactly cover `[0, fileSize)`. -/
theorem planParts_partitions (fileSize partSize : Nat)
    (hfs : 0 < fileSize) (hps : 0 < partSize) :
    (planParts fileSize partSize).length = totalPartsFor fileSize partSize
    ∧ (planParts fileSize partSize).map (fun p => p.partNumber)
        = (List.range (totalPartsFor fileSize partSize)).map (fun i => i + 1)
    ∧ (∀ i, i < (planParts fileSize partSize).length →
        ((planParts fileSize partSize).getD i dummyPart).partNumber = i + 1
        ∧ ((planParts fileSize partSize).getD i dummyPart).start = i * partSize
        ∧ ((planParts fileSize partSize).getD i dummyPart).stop
            = min (i * partSize + partSize) fileSize
        ∧ ((planParts fileSize partSize).getD i dummyPart).start
            < ((planParts fileSize partSize).getD i dummyPart).stop)
    ∧ (∀ i, i + 1 < (planParts fileSize partSize).length →
        ((planParts fileSize partSize).getD i dummyPart).stop
          = ((planParts fileSize partSize).getD (i + 1) dummyPart).start)
    ∧ ((planParts fileSize partSize).getD 0 dummyPart).start = 0
    ∧ ((planParts fileSize partSize).getD
          ((planParts fileSize partSize).length - 1) dummyPart).stop = fileSize
    ∧ (∀ b, b < fileSize → ∃! i,
        i < (planParts fileSize partSize).length
        ∧ ((planParts fileSize partSize).getD i dummyPart).start ≤ b
        ∧ b < ((planParts fileSize partSize).getD i dummyPart).stop) := by
  have hlen := planParts_length fileSize partSize
  have hnpos := totalPartsFor_pos fileSize partSize hfs hps
  have hge := totalPartsFor_mul_ge fileSize partSize hps
  refine ⟨hlen, ?_, ?_, ?_, ?_, ?_, ?_⟩
  · unfold planParts
    rw [List.map_map]
    rfl
  · intro i hi
    rw [hlen] at hi
    rw [planParts_getD fileSize partSize i hi]
    have hmul := mul_lt_of_lt_totalPartsFor fileSize partSize i hps hi
    refine ⟨rfl, rfl, rfl, ?_⟩
    simp only
    omega
  · intro i hi
    rw [hlen] at hi
    have hi1 : i < totalPartsFor fileSize partSize := by omega
    rw [planParts_getD fileSize partSize i hi1, planParts_getD fileSize partSize (i + 1) hi]
    have hmul := mul_lt_of_lt_totalPartsFor fileSize partSize (i + 1) hps hi
    have hs : (i + 1) * partSize = i * partSize + partSize := Nat.succ_mul i partSize
    simp only
    omega
  · rw [planParts_getD fileSize partSize 0 hnpos]
    simp
  · rw [hlen]
    rw [planParts_getD fileSize partSize (totalPartsFor fileSize partSize - 1) (by omega)]
    have hs : (totalPartsFor fileSize partSize - 1) * partSize
        = totalPartsFor fileSize partSize * partSize - partSize := Nat.sub_one_mul _ _
    simp only
    omega
  · intro b hb
    refine ⟨b / partSize, ⟨?_, ?_, ?_⟩, ?_⟩
    · rw [hlen]
      rw [Nat.div_lt_iff_lt_mul hps]
      calc b < fileSize := hb
        _ ≤ totalPartsFor fileSize partSize * partSize := hge
    · have hidx : b / partSize < totalPartsFor fileSize partSize := by
        rw [Nat.div_lt_iff_lt_mul hps]
        omega
      rw [planParts_getD fileSize partSize _ hidx]
      exact Nat.div_mul_le_self b partSize
    · have hidx : b / partSize < totalPartsFor fileSize partSize := by
        rw [Nat.div_lt_iff_lt_mul hps]
        omega
      rw [planParts_getD fileSize partSize _ hidx]
      have hdm := Nat.div_add_mod b partSize
      have hmod : b % partSize < partSize := Nat.mod_lt _ hps
      have hcomm : (b / partSize) * partSize = partSize * (b / partSize) := Nat.mul_comm _ _
      simp only
      omega
    · intro j hj
      obtain ⟨hjlen, hjs, hje⟩ := hj
      rw [hlen] at hjlen
      rw [planParts_getD fileSize partSize j hjlen] at hjs hje
      simp only at hjs hje
      exact div_index_unique partSize b j hps hjs (by omega)

/-- The planned parts are `1 .. totalParts` in order: the part stored at index
`partNumber - 1` is the part itself. -/
theorem planParts_self_indexed (fileSize partSize : Nat) (p : PartInfo)
    (hp : p ∈ planParts fileSize partSize) :
    p.partNumber - 1 < (planParts fileSize partSize).length
    ∧ (planParts fileSize partSize).getD (p.partNumber - 1) dummyPart = p
    ∧ 1 ≤ p.partNumber := by
  unfold planParts at hp
  obtain ⟨i, hi, rfl⟩ := List.mem_map.mp hp
  rw [List.mem_range] at hi
  simp only
  rw [planParts_length]
  refine ⟨by omega, ?_, by omega⟩
  have : i + 1 - 1 = i := by omega
  rw [this, planParts_getD fileSize partSize i hi]

/-- Total length of the planned parts: they sum to `min (n * partSize)
fileSize` over the first `n` planned indices. -/
theorem planParts_sum_range (fileSize partSize : Nat) : ∀ m,
    ((List.range m).map (fun i =>
        partLen { partNumber := i + 1, start := i * partSize,
                  stop := min (i * partSize + partSize) fileSize })).sum
      = min (m * partSize) fileSize
  | 0 => by simp
  | Nat.succ m => by
    rw [List.range_succ, List.map_append, List.sum_append,
      planParts_sum_range fileSize partSize m]
    simp only [List.map_cons, List.map_nil, List.sum_cons, List.sum_nil, partLen]
    rw [Nat.succ_mul]
    rcases Nat.le_total (m * partSize + partSize) fileSize with h | h
    · rw [Nat.min_eq_left h, Nat.min_eq_left (show m * partSize ≤ fileSize by omega)]
      omega
    · rw [Nat.min_eq_right h]
      rcases Nat.le_total (m * partSize) fileSize with h2 | h2
      · rw [Nat.min_eq_left h2]
        omega
      · rw [Nat.min_eq_right h2]
        omega

/-- The planned parts partition the file: their lengths sum to `fileSize`. -/
theorem planParts_sum (fileSize partSize : Nat) (hps : 0 < partSize) :
    ((planParts fileSize partSize).map partLen).sum = fileSize := by
  unfold planParts
  rw [List.map_map]
  have h := planParts_sum_range fileSize partSize (totalPartsFor fileSize partSize)
  have hge := totalPartsFor_mul_ge fileSize partSize hps
  calc ((List.range (totalPartsFor fileSize partSize)).map
          (partLen ∘ fun i => { partNumber := i + 1, start := i * partSize,
                                stop := min (i * partSize + partSize) fileSize })).sum
      = min (totalPartsFor fileSize partSize * partSize) fileSize := h
    _ = fileSize := by omega

theorem insertPart_perm (r : PartResult) (l : List PartResult) :
    List.Perm (insertPart r l) (r :: l) := by
  induction l with
  | nil => simp [insertPart]
  | cons x xs ih =>
    unfold insertPart
    by_cases h : r.part ≤ x.part
    · simp [h]
    · simp only [h, if_false]
      exact (List.Perm.cons x ih).trans (List.Perm.swap r x xs)

theorem insertPart_sorted (r : PartResult) (l : List PartResult)
    (hl : List.Sorted partLe l) : List.Sorted partLe (insertPart r l) := by
  induction l with
  | nil => simp [insertPart, List.Sorted]
  | cons x xs ih =>
    unfold insertPart
    rw [List.sorted_cons] at hl
    by_cases h : r.part ≤ x.part
    · simp only [h, if_true]
      rw [List.sorted_cons]
      constructor
      · intro b hb
        rw [List.mem_cons] at hb
        rcases hb with rfl | hb
        · exact h
        · exact Nat.le_trans h (hl.1 b hb)
      · rw [List.sorted_cons]
        exact hl
    · simp only [h, if_false]
      rw [List.sorted_cons]
      constructor
      · intro b hb
        have hb' := (insertPart_perm r xs).mem_iff.mp hb
        rcases List.mem_cons.mp hb' with rfl | hmem
        · exact Nat.le_of_not_le h
        · exact hl.1 b hmem
      · exact ih hl.2

/-- `sortParts` always returns a list sorted ascending by part number. -/
theorem sortParts_sorted (l : List PartResult) : List.Sorted partLe (sortParts l) := by
  induction l with
  | nil => simp [sortParts, List.Sorted]
  | cons x xs ih => exact insertPart_sorted x (sortParts xs) ih

/-- `sortParts` is a permutation of its input. -/
theorem sortParts_perm (l : List PartResult) : List.Perm (sortParts l) l := by
  induction l with
  | nil => simp [sortParts]
  | cons x xs ih =>
    unfold sortParts
    exact (insertPart_perm x (sortParts xs)).trans (List.Perm.cons x ih)

/-!
## Facts about the retry recursion
-/
theorem retryFn_ok (maxRetries : Nat) (attempt : Nat → Except String String)
    (rl idx : Nat) (e : String) (h : attempt idx = Except.ok e) :
    uploadPartWithRetryFn maxRetries attempt rl idx = (1, ([], Except.ok e)) := by
  unfold uploadPartWithRetryFn
  rw [h]

theorem retryFn_err_zero (maxRetries : Nat) (attempt : Nat → Except String String)
    (idx : Nat) (m : String) (h : attempt idx = Except.error m) :
    uploadPartWithRetryFn maxRetries attempt 0 idx = (1, ([], Except.error m)) := by
  unfold uploadPartWithRetryFn
  rw [h]

theorem retryFn_err_succ (maxRetries : Nat) (attempt : Nat → Except String String)
    (r' idx : Nat) (m : String) (h : attempt idx = Except.error m) :
    uploadPartWithRetryFn maxRetries attempt (r' + 1) idx =
      ((uploadPartWithRetryFn maxRetries attempt r' (idx + 1)).1 + 1,
       ((maxRetries - (r' + 1) + 1) * 1000
          :: (uploadPartWithRetryFn maxRetries attempt r' (idx + 1)).2.1,
        (uploadPartWithRetryFn maxRetries attempt r' (idx + 1)).2.2)) := by
  conv_lhs => unfold uploadPartWithRetryFn
  rw [h]

theorem uploadPartWithRetryFn_spec (maxRetries : Nat)
    (attempt : Nat → Except String String) : ∀ retriesLeft idx,
    1 ≤ (uploadPartWithRetryFn maxRetries attempt retriesLeft idx).1
    ∧ (uploadPartWithRetryFn maxRetries attempt retriesLeft idx).1 ≤ retriesLeft + 1
    ∧ (uploadPartWithRetryFn maxRetries attempt retriesLeft idx).2.1.length
        = (uploadPartWithRetryFn maxRetries attempt retriesLeft idx).1 - 1
    ∧ (retriesLeft ≤ maxRetries →
        ∀ k, k < (uploadPartWithRetryFn maxRetries attempt retriesLeft idx).2.1.length →
        (uploadPartWithRetryFn maxRetries attempt retriesLeft idx).2.1.getD k 0
          = (maxRetries - retriesLeft + k + 1) * 1000)
    ∧ ((∀ j, ∃ m, attempt j = Except.error m) →
        (uploadPartWithRetryFn maxRetries attempt retriesLeft idx).1 = retriesLeft + 1
        ∧ (uploadPartWithRetryFn maxRetries attempt retriesLeft idx).2.2
            = attempt (idx + retriesLeft))
  | 0, idx => by
    rcases hA : attempt idx with m | e
    · rw [retryFn_err_zero maxRetries attempt idx m hA]
      refine ⟨by omega, by omega, by simp, by simp, ?_⟩
      intro _
      refine ⟨rfl, ?_⟩
      simp [hA]
    · rw [retryFn_ok maxRetries attempt 0 idx e hA]
      refine ⟨by omega, by omega, by simp, by simp, ?_⟩
      intro hall
      obtain ⟨m, hm⟩ := hall idx
      rw [hA] at hm
      cases hm
  | (r' + 1), idx => by
    rcases hA : attempt idx with m | e
    · obtain ⟨ih0, ih1, ih2, ih3, ih4⟩ :=
        uploadPartWithRetryFn_spec maxRetries attempt r' (idx + 1)
      rw [retryFn_err_succ maxRetries attempt r' idx m hA]
      refine ⟨by omega, by omega, by simp; omega, ?_, ?_⟩
      · intro hrl k hk
        simp only [List.length_cons] at hk
        rcases k with _ | k'
        · simp only [List.getD_cons_zero]
        · simp only [List.getD_cons_succ]
          have hk' : k' < (uploadPartWithRetryFn maxRetries attempt r' (idx + 1)).2.1.length := by
            omega
          rw [ih3 (by omega) k' hk']
          have heq : maxRetries - r' + k' + 1 = maxRetries - (r' + 1) + (k' + 1) + 1 := by
            omega
          rw [heq]
      · intro hall
        obtain ⟨ha1, ha2⟩ := ih4 hall
        refine ⟨by omega, ?_⟩
        rw [ha2]
        have heq : idx + 1 + r' = idx + (r' + 1) := by omega
        rw [heq]
    · rw [retryFn_ok maxRetries attempt (r' + 1) idx e hA]
      refine ⟨by omega, by omega, by simp, by simp, ?_⟩
      intro hall
      obtain ⟨m, hm⟩ := hall idx
      rw [hA] at hm
      cases hm

theorem wfCtx_mkCtx (fileSize partSize maxRetries concurrency : Nat) :
    wfCtx (mkCtx fileSize partSize maxRetries concurrency) := by
  intro p hp
  have h := planParts_self_indexed fileSize partSize p hp
  simpa [mkCtx] using h

theorem heldOkB_true_iff (c : Ctx) (w : WStatus) :
    heldOkB c w = true ↔ ∀ p, heldPart w = some p → p ∈ c.parts := by
  cases w <;> simp [heldOkB, heldPart]

theorem inv_initState (c : Ctx) : MInv c (initState c) := by
  refine ⟨by simp [initState], ?_, by simp [initState], ?_, by simp [initState],
    by simp [initState, Phase], by simp [initState, Phase], by simp [initState],
    by simp [initState, Phase]⟩
  · intro j hj
    simp only [initState]
    rw [List.getD_eq_getElem?_getD, List.getElem?_replicate]
    split <;> simp
  · simp only [initState]
    rw [List.all_eq_true]
    intro w hw
    rw [List.eq_of_mem_replicate hw]
    simp [heldOkB, heldPart]

theorem all_heldOk_set (c : Ctx) (l : List WStatus) (i : Nat) (w : WStatus)
    (hall : l.all (heldOkB c) = true) (hw : heldOkB c w = true) :
    (l.set i w).all (heldOkB c) = true := by
  rw [List.all_eq_true] at hall ⊢
  intro x hx
  rcases List.mem_or_eq_of_mem_set hx with hx' | rfl
  · exact hall x hx'
  · exact hw

theorem setCounter_progress_len (s : MState) (pn v : Nat) :
    (setCounter s pn v).partProgress.length = s.partProgress.length := by
  simp [setCounter, List.length_set]

theorem setCounter_getD (s : MState) (pn v j : Nat) :
    (setCounter s pn v).partProgress.getD j 0
      = if pn - 1 = j ∧ pn - 1 < s.partProgress.length then v
        else s.partProgress.getD j 0 := by
  simp only [setCounter]
  rw [List.getD_eq_getElem?_getD, List.getElem?_set]
  by_cases hij : pn - 1 = j
  · by_cases hlt : pn - 1 < s.partProgress.length
    · rw [if_pos hij, if_pos hlt, if_pos ⟨hij, hlt⟩]
      rfl
    · rw [if_pos hij, if_neg hlt, if_neg (fun hc => hlt hc.2)]
      subst hij
      rw [List.getD_eq_getElem?_getD, List.getElem?_eq_none (by omega)]
  · rw [if_neg hij, if_neg (fun hc => hij hc.1), ← List.getD_eq_getElem?_getD]

theorem setCounter_bound (c : Ctx) (hwf : wfCtx c) (s : MState) (p : PartInfo) (v : Nat)
    (hp : p ∈ c.parts) (hv : v ≤ partLen p)
    (h2 : ∀ j, j < c.parts.length → s.partProgress.getD j 0 ≤ partLen (c.parts.getD j dummyPart)) :
    ∀ j, j < c.parts.length →
      (setCounter s p.partNumber v).partProgress.getD j 0
        ≤ partLen (c.parts.getD j dummyPart) := by
  intro j hj
  obtain ⟨hlt, hgetD, hone⟩ := hwf p hp
  rw [setCounter_getD]
  by_cases hij : p.partNumber - 1 = j ∧ p.partNumber - 1 < s.partProgress.length
  · rw [if_pos hij]
    rw [← hij.1, hgetD]
    exact hv
  · rw [if_neg hij]
    exact h2 j hj

theorem resetFold_eq : ∀ (l : List PartInfo) (s : MState),
    l.foldl (fun acc p => setCounter acc p.partNumber 0) s
      = { s with partProgress :=
            (l.foldl (fun acc p => setCounter acc p.partNumber 0) s).partProgress }
  | [], s => rfl
  | p :: l, s => by
    show l.foldl _ (setCounter s p.partNumber 0) = _
    rw [resetFold_eq l (setCounter s p.partNumber 0)]
    rfl

theorem resetFold_len : ∀ (l : List PartInfo) (s : MState),
    (l.foldl (fun acc p => setCounter acc p.partNumber 0) s).partProgress.length
      = s.partProgress.length
  | [], s => rfl
  | p :: l, s => by
    show (l.foldl _ (setCounter s p.partNumber 0)).partProgress.length = _
    rw [resetFold_len l (setCounter s p.partNumber 0), setCounter_progress_len]

theorem resetFold_getD_cases : ∀ (l : List PartInfo) (s : MState) (j : Nat),
    (l.foldl (fun acc p => setCounter acc p.partNumber 0) s).partProgress.getD j 0
        = s.partProgress.getD j 0
    ∨ (l.foldl (fun acc p => setCounter acc p.partNumber 0) s).partProgress.getD j 0 = 0
  | [], s, j => Or.inl rfl
  | p :: l, s, j => by
    rw [List.foldl_cons]
    rcases resetFold_getD_cases l (setCounter s p.partNumber 0) j with h | h
    · rw [h, setCounter_getD]
      by_cases hc : p.partNumber - 1 = j ∧ p.partNumber - 1 < s.partProgress.length
      · rw [if_pos hc]
        exact Or.inr rfl
      · rw [if_neg hc]
        exact Or.inl rfl
    · rw [h]
      exact Or.inr rfl

theorem resetFold_mem_zero : ∀ (l : List PartInfo) (s : MState)
    (_ : ∀ p ∈ l, p.partNumber - 1 < s.partProgress.length),
    ∀ p ∈ l, (l.foldl (fun acc p => setCounter acc p.partNumber 0) s).partProgress.getD
        (p.partNumber - 1) 0 = 0
  | [], _, _, p, hp => absurd hp (List.not_mem_nil p)
  | q :: l, s, hlen, p, hp => by
    rw [List.foldl_cons]
    rcases List.mem_cons.mp hp with rfl | hmem
    · rcases resetFold_getD_cases l (setCounter s p.partNumber 0) (p.partNumber - 1) with h | h
      · rw [h, setCounter_getD,
          if_pos ⟨rfl, hlen p (List.mem_cons_self p l)⟩]
      · exact h
    · refine resetFold_mem_zero l (setCounter s q.partNumber 0) ?_ p hmem
      intro r hr
      rw [setCounter_progress_len]
      exact hlen r (List.mem_cons_of_mem q hr)

theorem heldOkB_presigning (c : Ctx) (p : PartInfo) (r : Nat) (hp : p ∈ c.parts) :
    heldOkB c (WStatus.presigning p r) = true := by
  simp [heldOkB, heldPart, hp]

theorem heldOkB_attempting (c : Ctx) (p : PartInfo) (r u : Nat) (hp : p ∈ c.parts) :
    heldOkB c (WStatus.attempting p r u) = true := by
  simp [heldOkB, heldPart, hp]

theorem heldOkB_backoff (c : Ctx) (p : PartInfo) (r : Nat) (hp : p ∈ c.parts) :
    heldOkB c (WStatus.backoff p r) = true := by
  simp [heldOkB, heldPart, hp]

theorem held_mem_of_get? (c : Ctx) (ws : List WStatus) (i : Nat) (w : WStatus) (p : PartInfo)
    (h4 : ws.all (heldOkB c) = true) (hget : ws.get? i = some w)
    (hp : heldPart w = some p) : p ∈ c.parts := by
  have hw := (List.all_eq_true.mp h4) w (List.get?_mem hget)
  exact (heldOkB_true_iff c w).mp hw p hp

/-- Every step of the machine preserves the invariant. -/
theorem inv_step (c : Ctx) (hwf : wfCtx c) (s s' : MState) (ch : Choice) (l : Label)
    (hInv : MInv c s) (h : stepM c s ch = some (s', l)) : MInv c s' := by
  obtain ⟨h1, h2, h3, h4, h5, h6, h7, h8, h9⟩ := hInv
  cases ch with
  | pop i =>
    simp only [stepM] at h
    split at h
    · rename_i p rest hget hq
      split at h
      · cases h
      · simp only [Option.some_inj, Prod.mk.injEq] at h
        obtain ⟨hs, hl⟩ := h
        subst hs
        have hp : p ∈ c.parts := h3 p (hq ▸ List.mem_cons_self p rest)
        refine ⟨h1, h2, ?_, ?_, h5, h6, h7, h8, h9⟩
        · intro x hx
          exact h3 x (hq ▸ List.mem_cons_of_mem p hx)
        · exact all_heldOk_set c s.workers i _ h4 (heldOkB_presigning c p c.maxRetries hp)
    · cases h
  | presignOk i =>
    simp only [stepM] at h
    split at h
    · rename_i p r hget
      split at h
      · cases h
      · simp only [Option.some_inj, Prod.mk.injEq] at h
        obtain ⟨hs, hl⟩ := h
        subst hs
        have hp : p ∈ c.parts := held_mem_of_get? c s.workers i _ p h4 hget rfl
        exact ⟨h1, h2, h3, all_heldOk_set c s.workers i _ h4
          (heldOkB_attempting c p r 0 hp), h5, h6, h7, h8, h9⟩
    · cases h
  | presignFail i =>
    simp only [stepM] at h
    split at h
    · rename_i p r hget
      split at h
      · cases h
      · split at h
        · simp only [Option.some_inj, Prod.mk.injEq] at h
          obtain ⟨hs, hl⟩ := h
          subst hs
          exact ⟨h1, h2, h3, all_heldOk_set c s.workers i _ h4 rfl, h5, h6, h7, h8, h9⟩
        · rename_i r' hr
          simp only [Option.some_inj, Prod.mk.injEq] at h
          obtain ⟨hs, hl⟩ := h
          subst hs
          have hp : p ∈ c.parts := held_mem_of_get? c s.workers i _ p h4 hget rfl
          refine ⟨?_, ?_, h3, ?_, h5, h6, h7, h8, h9⟩
          · rw [setCounter_progress_len]
            exact h1
          · exact setCounter_bound c hwf s p 0 hp (Nat.zero_le _) h2
          · exact all_heldOk_set c s.workers i _ h4 (heldOkB_backoff c p r' hp)
    · cases h
  | presignCancelled i =>
    simp only [stepM] at h
    split at h
    · split at h
      · simp only [Option.some_inj, Prod.mk.injEq] at h
        obtain ⟨hs, hl⟩ := h
        subst hs
        exact ⟨h1, h2, h3, all_heldOk_set c s.workers i _ h4 rfl, h5, h6, h7, h8, h9⟩
      · cases h
    · cases h
  | writeProgress i b =>
    simp only [stepM] at h
    split at h
    · rename_i p r u hget
      split at h
      · cases h
      · split at h
        · rename_i hlt
          simp only [Option.some_inj, Prod.mk.injEq] at h
          obtain ⟨hs, hl⟩ := h
          subst hs
          have hp : p ∈ c.parts := held_mem_of_get? c s.workers i _ p h4 hget rfl
          refine ⟨?_, ?_, h3, ?_, h5, h6, h7, h8, h9⟩
          · rw [setCounter_progress_len]
            exact h1
          · exact setCounter_bound c hwf s p _ hp (Nat.min_le_right _ _) h2
          · exact all_heldOk_set c s.workers i _ h4
              (heldOkB_attempting c p r _ hp)
        · cases h
    · cases h
  | attemptSucceed i e =>
    simp only [stepM] at h
    split at h
    · split at h
      · cases h
      · split at h
        · simp only [Option.some_inj, Prod.mk.injEq] at h
          obtain ⟨hs, hl⟩ := h
          subst hs
          exact ⟨h1, h2, h3, all_heldOk_set c s.workers i _ h4 rfl, h5, h6, h7, h8, h9⟩
        · cases h
    · cases h
  | attemptFail i =>
    simp only [stepM] at h
    split at h
    · rename_i p r u hget
      split at h
      · cases h
      · split at h
        · simp only [Option.some_inj, Prod.mk.injEq] at h
          obtain ⟨hs, hl⟩ := h
          subst hs
          exact ⟨h1, h2, h3, all_heldOk_set c s.workers i _ h4 rfl, h5, h6, h7, h8, h9⟩
        · rename_i r' hr
          simp only [Option.some_inj, Prod.mk.injEq] at h
          obtain ⟨hs, hl⟩ := h
          subst hs
          have hp : p ∈ c.parts := held_mem_of_get? c s.workers i _ p h4 hget rfl
          refine ⟨?_, ?_, h3, ?_, h5, h6, h7, h8, h9⟩
          · rw [setCounter_progress_len]
            exact h1
          · exact setCounter_bound c hwf s p 0 hp (Nat.zero_le _) h2
          · exact all_heldOk_set c s.workers i _ h4 (heldOkB_backoff c p r' hp)
    · cases h
  | attemptCancelledClean i =>
    simp only [stepM] at h
    split at h
    · split at h
      · simp only [Option.some_inj, Prod.mk.injEq] at h
        obtain ⟨hs, hl⟩ := h
        subst hs
        exact ⟨h1, h2, h3, all_heldOk_set c s.workers i _ h4 rfl, h5, h6, h7, h8, h9⟩
      · cases h
    · cases h
  | attemptCancelledErr i =>
    simp only [stepM] at h
    split at h
    · split at h
      · simp only [Option.some_inj, Prod.mk.injEq] at h
        obtain ⟨hs, hl⟩ := h
        subst hs
        exact ⟨h1, h2, h3, all_heldOk_set c s.workers i _ h4 rfl, h5, h6, h7, h8, h9⟩
      · cases h
    · cases h
  | backoffEnd i =>
    simp only [stepM] at h
    split at h
    · rename_i p r hget
      split at h
      · simp only [Option.some_inj, Prod.mk.injEq] at h
        obtain ⟨hs, hl⟩ := h
        subst hs
        exact ⟨h1, h2, h3, all_heldOk_set c s.workers i _ h4 rfl, h5, h6, h7, h8, h9⟩
      · simp only [Option.some_inj, Prod.mk.injEq] at h
        obtain ⟨hs, hl⟩ := h
        subst hs
        have hp : p ∈ c.parts := held_mem_of_get? c s.workers i _ p h4 hget rfl
        exact ⟨h1, h2, h3, all_heldOk_set c s.workers i _ h4
          (heldOkB_presigning c p r hp), h5, h6, h7, h8, h9⟩
    · cases h
  | workerExit i =>
    simp only [stepM] at h
    split at h
    · split at h
      · simp only [Option.some_inj, Prod.mk.injEq] at h
        obtain ⟨hs, hl⟩ := h
        subst hs
        exact ⟨h1, h2, h3, all_heldOk_set c s.workers i _ h4 rfl, h5, h6, h7, h8, h9⟩
      · cases h
    · cases h
  | cancel =>
    simp only [stepM] at h
    split at h
    · cases h
    · simp only [Option.some_inj, Prod.mk.injEq] at h
      obtain ⟨hs, hl⟩ := h
      subst hs
      exact ⟨h1, h2, h3, h4, h5, h6, h7, h8, h9⟩
  | roundEnd =>
    simp only [stepM] at h
    split at h
    · rename_i hguard
      have hph : s.phase = Phase.running := by
        rw [Bool.and_eq_true] at hguard
        exact eq_of_beq hguard.1
      split at h
      · simp only [Option.some_inj, Prod.mk.injEq] at h
        obtain ⟨hs, hl⟩ := h
        subst hs
        refine ⟨h1, h2, h3, h4, h5, ?_, ?_, h8, ?_⟩
        · rw [h6, hph]
          simp
        · rw [h7, hph]
          simp
        · intro hc
          cases hc
      · split at h
        · simp only [Option.some_inj, Prod.mk.injEq] at h
          obtain ⟨hs, hl⟩ := h
          subst hs
          refine ⟨h1, h2, h3, h4, h5, ?_, ?_, h8, ?_⟩
          · rw [h6, hph]
            simp
          · rw [h7, hph]
            simp
          · intro hc
            cases hc
        · split at h
          · simp only [Option.some_inj, Prod.mk.injEq] at h
            obtain ⟨hs, hl⟩ := h
            subst hs
            refine ⟨h1, h2, h3, h4, h5, ?_, ?_, h8, ?_⟩
            · rw [h6, hph]
              simp
            · rw [h7, hph]
              simp
            · intro hc
              cases hc
          · simp only [Option.some_inj, Prod.mk.injEq] at h
            obtain ⟨hs, hl⟩ := h
            subst hs
            refine ⟨h1, h2, h3, h4, ?_, ?_, ?_, h8, ?_⟩
            · intro p hp
              exact (List.mem_filter.mp hp).1
            · rw [h6, hph]
              simp
            · rw [h7, hph]
              simp
            · intro hc
              cases hc
    · cases h
  | decideRetry =>
    simp only [stepM] at h
    split at h
    · rename_i hguard
      have hph : s.phase = Phase.prompting := eq_of_beq hguard
      simp only [Option.some_inj, Prod.mk.injEq] at h
      obtain ⟨hs, hl⟩ := h
      subst hs
      refine ⟨?_, ?_, ?_, ?_, ?_, ?_, ?_, ?_, ?_⟩
      · show (s.failedSnapshot.foldl (fun acc p => setCounter acc p.partNumber 0)
          s).partProgress.length = c.parts.length
        rw [resetFold_len]
        exact h1
      · intro j hj
        show (s.failedSnapshot.foldl (fun acc p => setCounter acc p.partNumber 0)
          s).partProgress.getD j 0 ≤ partLen (c.parts.getD j dummyPart)
        rcases resetFold_getD_cases s.failedSnapshot s j with hc | hc
        · rw [hc]
          exact h2 j hj
        · rw [hc]
          exact Nat.zero_le _
      · exact h5
      · rw [List.all_append]
        rw [Bool.and_eq_true]
        refine ⟨h4, ?_⟩
        rw [List.all_eq_true]
        intro w hw
        rw [List.eq_of_mem_replicate hw]
        rfl
      · show ∀ p ∈ (s.failedSnapshot.foldl (fun acc p => setCounter acc p.partNumber 0)
          s).failedSnapshot, p ∈ c.parts
        rw [resetFold_eq]
        exact h5
      · rw [resetFold_eq]
        show s.abortCalls = _
        rw [h6, hph]
        simp
      · rw [resetFold_eq]
        show s.completeCalls = _
        rw [h7, hph]
        simp
      · rw [resetFold_eq]
        exact h8
      · intro hc
        cases hc
    · cases h
  | decideAbort =>
    simp only [stepM] at h
    split at h
    · rename_i hguard
      have hph : s.phase = Phase.prompting := eq_of_beq hguard
      simp only [Option.some_inj, Prod.mk.injEq] at h
      obtain ⟨hs, hl⟩ := h
      subst hs
      refine ⟨h1, h2, h3, h4, h5, ?_, ?_, h8, ?_⟩
      · rw [h6, hph]
        simp
      · rw [h7, hph]
        simp
      · intro hc
        cases hc
    · cases h
  | doAbort =>
    simp only [stepM] at h
    split at h
    · rename_i hguard
      have hph : s.phase = Phase.abortingUser := eq_of_beq hguard
      simp only [Option.some_inj, Prod.mk.injEq] at h
      obtain ⟨hs, hl⟩ := h
      subst hs
      refine ⟨h1, h2, h3, h4, h5, ?_, ?_, h8, ?_⟩
      · rw [h6, hph]
        simp
      · rw [h7, hph]
        simp
      · intro hc
        cases hc
    · split at h
      · rename_i hguard2
        have hph : s.phase = Phase.abortingCancel := eq_of_beq hguard2
        simp only [Option.some_inj, Prod.mk.injEq] at h
        obtain ⟨hs, hl⟩ := h
        subst hs
        refine ⟨h1, h2, h3, h4, h5, ?_, ?_, h8, ?_⟩
        · rw [h6, hph]
          simp
        · rw [h7, hph]
          simp
        · intro hc
          cases hc
      · cases h
  | doComplete =>
    simp only [stepM] at h
    split at h
    · rename_i hguard
      have hph : s.phase = Phase.completing := eq_of_beq hguard
      simp only [Option.some_inj, Prod.mk.injEq] at h
      obtain ⟨hs, hl⟩ := h
      subst hs
      refine ⟨h1, h2, h3, h4, h5, ?_, ?_, rfl, ?_⟩
      · rw [h6, hph]
        simp
      · rw [h7, hph]
        simp
      · intro hc
        rfl
    · cases h

/-- The invariant holds after any run from an invariant state. -/
theorem inv_runC (c : Ctx) (hwf : wfCtx c) : ∀ (choices : List Choice) (s : MState),
    MInv c s → MInv c (runC c s choices).1
  | [], _, hInv => hInv
  | ch :: rest, s, hInv => by
    rcases hstep : stepM c s ch with _ | ⟨s', lab⟩
    · simp only [runC, hstep]
      exact inv_runC c hwf rest s hInv
    · simp only [runC, hstep]
      exact inv_runC c hwf rest s' (inv_step c hwf s s' ch lab hInv hstep)

/-- Decomposing a run at a split point of the schedule. -/
theorem runC_append (c : Ctx) : ∀ (l₁ l₂ : List Choice) (s : MState),
    runC c s (l₁ ++ l₂)
      = ((runC c (runC c s l₁).1 l₂).1,
         (runC c s l₁).2 ++ (runC c (runC c s l₁).1 l₂).2)
  | [], l₂, s => by simp [runC]
  | ch :: l₁, l₂, s => by
    rcases hstep : stepM c s ch with _ | ⟨s', lab⟩
    · simp only [List.cons_append, runC, hstep]
      exact runC_append c l₁ l₂ s
    · simp only [List.cons_append, runC, hstep]
      rw [List.append_eq, runC_append c l₁ l₂ s']

/-- Once the cancel flag is set: it stays set, no step pops a part, starts an
attempt or pushes a result, and the completed set is frozen. -/
theorem cancelled_step (c : Ctx) (s s' : MState) (ch : Choice) (l : Label)
    (hc : s.cancelled = true) (h : stepM c s ch = some (s', l)) :
    s'.cancelled = true ∧ startsOrAdds l = false ∧ s'.uploadedParts = s.uploadedParts := by
  cases ch with
  | pop i =>
    simp only [stepM] at h
    split at h
    · split at h
      · cases h
      · rename_i hneg
        rw [hc] at hneg
        simp at hneg
    · cases h
  | presignOk i =>
    simp only [stepM] at h
    split at h
    · split at h
      · cases h
      · rename_i hneg
        exact absurd hc hneg
    · cases h
  | presignFail i =>
    simp only [stepM] at h
    split at h
    · split at h
      · cases h
      · rename_i hneg
        exact absurd hc hneg
    · cases h
  | presignCancelled i =>
    simp only [stepM] at h
    split at h
    · split at h
      · simp only [Option.some_inj, Prod.mk.injEq] at h
        obtain ⟨hs, hl⟩ := h
        subst hs
        subst hl
        exact ⟨hc, rfl, rfl⟩
      · rename_i hneg
        exact absurd hc hneg
    · cases h
  | writeProgress i b =>
    simp only [stepM] at h
    split at h
    · split at h
      · cases h
      · rename_i hneg
        exact absurd hc hneg
    · cases h
  | attemptSucceed i e =>
    simp only [stepM] at h
    split at h
    · split at h
      · cases h
      · rename_i hneg
        exact absurd hc hneg
    · cases h
  | attemptFail i =>
    simp only [stepM] at h
    split at h
    · split at h
      · cases h
      · rename_i hneg
        exact absurd hc hneg
    · cases h
  | attemptCancelledClean i =>
    simp only [stepM] at h
    split at h
    · split at h
      · simp only [Option.some_inj, Prod.mk.injEq] at h
        obtain ⟨hs, hl⟩ := h
        subst hs
        subst hl
        exact ⟨hc, rfl, rfl⟩
      · rename_i hneg
        exact absurd hc hneg
    · cases h
  | attemptCancelledErr i =>
    simp only [stepM] at h
    split at h
    · split at h
      · simp only [Option.some_inj, Prod.mk.injEq] at h
        obtain ⟨hs, hl⟩ := h
        subst hs
        subst hl
        exact ⟨hc, rfl, rfl⟩
      · rename_i hneg
        exact absurd hc hneg
    · cases h
  | backoffEnd i =>
    simp only [stepM] at h
    split at h
    · split at h
      · simp only [Option.some_inj, Prod.mk.injEq] at h
        obtain ⟨hs, hl⟩ := h
        subst hs
        subst hl
        exact ⟨hc, rfl, rfl⟩
      · rename_i hneg
        exact absurd hc hneg
    · cases h
  | workerExit i =>
    simp only [stepM] at h
    split at h
    · split at h
      · simp only [Option.some_inj, Prod.mk.injEq] at h
        obtain ⟨hs, hl⟩ := h
        subst hs
        subst hl
        exact ⟨hc, rfl, rfl⟩
      · rename_i hneg
        rw [hc] at hneg
        simp at hneg
    · cases h
  | cancel =>
    simp only [stepM] at h
    split at h
    · cases h
    · rename_i hneg
      exact absurd hc hneg
  | roundEnd =>
    simp only [stepM] at h
    split at h
    · simp only [Option.some_inj, Prod.mk.injEq] at h
      obtain ⟨hs, hl⟩ := h
      subst hs
      subst hl
      exact ⟨hc, rfl, rfl⟩
    · cases h
  | decideRetry =>
    simp only [stepM] at h
    split at h
    · simp only [Option.some_inj, Prod.mk.injEq] at h
      obtain ⟨hs, hl⟩ := h
      subst hs
      subst hl
      refine ⟨?_, rfl, ?_⟩
      · show (s.failedSnapshot.foldl (fun acc p => setCounter acc p.partNumber 0)
          s).cancelled = true
        rw [resetFold_eq]
        exact hc
      · show (s.failedSnapshot.foldl (fun acc p => setCounter acc p.partNumber 0)
          s).uploadedParts = s.uploadedParts
        rw [resetFold_eq]
    · cases h
  | decideAbort =>
    simp only [stepM] at h
    split at h
    · simp only [Option.some_inj, Prod.mk.injEq] at h
      obtain ⟨hs, hl⟩ := h
      subst hs
      subst hl
      exact ⟨hc, rfl, rfl⟩
    · cases h
  | doAbort =>
    simp only [stepM] at h
    split at h
    · simp only [Option.some_inj, Prod.mk.injEq] at h
      obtain ⟨hs, hl⟩ := h
      subst hs
      subst hl
      exact ⟨hc, rfl, rfl⟩
    · split at h
      · simp only [Option.some_inj, Prod.mk.injEq] at h
        obtain ⟨hs, hl⟩ := h
        subst hs
        subst hl
        exact ⟨hc, rfl, rfl⟩
      · cases h
  | doComplete =>
    simp only [stepM] at h
    split at h
    · simp only [Option.some_inj, Prod.mk.injEq] at h
      obtain ⟨hs, hl⟩ := h
      subst hs
      subst hl
      exact ⟨hc, rfl, rfl⟩
    · cases h

/-- Once cancelled: along any continuation no pop / attempt start / result
push occurs and the completed set never changes. -/
theorem cancelled_run (c : Ctx) : ∀ (choices : List Choice) (s : MState),
    s.cancelled = true →
    (runC c s choices).1.cancelled = true
    ∧ (∀ l ∈ (runC c s choices).2, startsOrAdds l = false)
    ∧ (runC c s choices).1.uploadedParts = s.uploadedParts
  | [], s, hc => ⟨hc, by simp [runC], rfl⟩
  | ch :: rest, s, hc => by
    rcases hstep : stepM c s ch with _ | ⟨s', lab⟩
    · simp only [runC, hstep]
      exact cancelled_run c rest s hc
    · obtain ⟨hc', hlab, hup⟩ := cancelled_step c s s' ch lab hc hstep
      obtain ⟨ihc, ihlab, ihup⟩ := cancelled_run c rest s' hc'
      simp only [runC, hstep]
      refine ⟨ihc, ?_, ihup.trans hup⟩
      intro x hx
      rcases List.mem_cons.mp hx with rfl | hx'
      · exact hlab
      · exact ihlab x hx'

theorem cancelled_funnel_step (c : Ctx) (s s' : MState) (ch : Choice) (l : Label)
    (hc : s.cancelled = true) (hph : cancelFunnel s.phase)
    (h : stepM c s ch = some (s', l)) : cancelFunnel s'.phase := by
  cases ch <;> simp only [stepM] at h <;> (repeat' split at h)
  all_goals first
    | exact Option.noConfusion h
    | (simp only [Option.some_inj, Prod.mk.injEq] at h
       obtain ⟨hs, hl⟩ := h
       subst hs
       first
         | exact hph
         | exact Or.inl rfl
         | exact Or.inr (Or.inl rfl)
         | exact Or.inr (Or.inr rfl))
    | (rename_i hguard
       rw [eq_of_beq hguard] at hph
       rcases hph with hx | hx | hx <;> cases hx)

theorem cancelled_funnel_run (c : Ctx) : ∀ (choices : List Choice) (s : MState),
    s.cancelled = true → cancelFunnel s.phase →
    cancelFunnel (runC c s choices).1.phase
  | [], _, _, hph => hph
  | ch :: rest, s, hc, hph => by
    rcases hstep : stepM c s ch with _ | ⟨s', lab⟩
    · simp only [runC, hstep]
      exact cancelled_funnel_run c rest s hc hph
    · simp only [runC, hstep]
      exact cancelled_funnel_run c rest s'
        (cancelled_step c s s' ch lab hc hstep).1
        (cancelled_funnel_step c s s' ch lab hc hph hstep)

/-!
## Liveness after cancellation: the machine can always finish with the
cancelled abort.
-/
theorem filter_length_set_notP (P : WStatus → Bool) : ∀ (l : List WStatus) (j : Nat)
    (w' : WStatus), j < l.length → P (l.getD j WStatus.idle) = true → P w' = false →
    ((l.set j w').filter P).length + 1 = (l.filter P).length
  | [], j, w', hj, _, _ => absurd hj (by simp)
  | x :: xs, 0, w', _, hP, hP' => by
    rw [List.getD_cons_zero] at hP
    show ((w' :: xs).filter P).length + 1 = _
    rw [List.filter_cons, List.filter_cons, hP, hP']
    simp
  | x :: xs, j + 1, w', hj, hP, hP' => by
    have hj' : j < xs.length := by
      simp only [List.length_cons] at hj
      omega
    have hP2 : P (xs.getD j WStatus.idle) = true := by
      rw [List.getD_cons_succ] at hP
      exact hP
    have ih := filter_length_set_notP P xs j w' hj' hP2 hP'
    show ((x :: xs.set j w').filter P).length + 1 = _
    rw [List.filter_cons, List.filter_cons]
    by_cases hx : P x = true
    · rw [if_pos hx, if_pos hx]
      simp only [List.length_cons]
      omega
    · rw [if_neg hx, if_neg hx]
      exact ih

theorem getD_drop (l : List WStatus) (n m : Nat) :
    (l.drop n).getD m WStatus.idle = l.getD (n + m) WStatus.idle := by
  rw [List.getD_eq_getElem?_getD, List.getD_eq_getElem?_getD, List.getElem?_drop]

theorem pendingCount_set (s : MState) (i : Nat) (w' : WStatus)
    (hi : s.curStart ≤ i) (hlt : i < s.workers.length)
    (hP : isExited (s.workers.getD i WStatus.idle) = false) (hw' : isExited w' = true) :
    pendingCount { s with workers := s.workers.set i w' } + 1 = pendingCount s := by
  unfold pendingCount curWorkers
  simp only
  rw [List.drop_set, if_neg (by omega)]
  refine filter_length_set_notP (fun w => !isExited w) (s.workers.drop s.curStart)
    (i - s.curStart) w' ?_ ?_ ?_
  · rw [List.length_drop]
    omega
  · show (!isExited ((s.workers.drop s.curStart).getD (i - s.curStart) WStatus.idle)) = true
    rw [getD_drop]
    have heq : s.curStart + (i - s.curStart) = i := by omega
    rw [heq, hP]
    rfl
  · show (!isExited w') = false
    rw [hw']
    rfl

theorem exists_pending (s : MState) (h : 0 < pendingCount s) :
    ∃ i w, s.curStart ≤ i ∧ i < s.workers.length
      ∧ s.workers.get? i = some w ∧ isExited w = false := by
  unfold pendingCount at h
  rcases hF : (curWorkers s).filter (fun w => !isExited w) with _ | ⟨w, ws⟩
  · rw [hF] at h
    simp at h
  · have hw : w ∈ (curWorkers s).filter (fun w => !isExited w) := by
      rw [hF]
      exact List.mem_cons_self w ws
    rw [List.mem_filter] at hw
    obtain ⟨hmem, hexp⟩ := hw
    obtain ⟨j, hj, hget⟩ := List.getElem_of_mem hmem
    refine ⟨s.curStart + j, w, by omega, ?_, ?_, ?_⟩
    · unfold curWorkers at hj
      rw [List.length_drop] at hj
      omega
    · rw [List.get?_eq_getElem?]
      unfold curWorkers at hj hget
      have h1 : (s.workers.drop s.curStart)[j]? = some w :=
        List.getElem?_eq_some.mpr ⟨hj, hget⟩
      rw [List.getElem?_drop] at h1
      exact h1
    · rw [Bool.not_eq_true'] at hexp
      exact hexp

theorem close_step (c : Ctx) (s : MState) (i : Nat) (w : WStatus)
    (hc : s.cancelled = true) (hget : s.workers.get? i = some w)
    (hne : isExited w = false) :
    ∃ w' l, stepM c s (closeChoice i w)
        = some ({ s with workers := s.workers.set i w' }, l) ∧ isExited w' = true := by
  cases w with
  | idle =>
    refine ⟨WStatus.exitedOk, Label.workerExited i, ?_, rfl⟩
    simp only [closeChoice, stepM, hget]
    rw [if_pos (by rw [hc]; simp)]
  | presigning p r =>
    refine ⟨WStatus.exitedThrown, Label.workerCancelled i, ?_, rfl⟩
    simp only [closeChoice, stepM, hget]
    rw [if_pos hc]
  | attempting p r u =>
    refine ⟨WStatus.exitedThrown, Label.workerCancelled i, ?_, rfl⟩
    simp only [closeChoice, stepM, hget]
    rw [if_pos hc]
  | backoff p r =>
    refine ⟨WStatus.exitedThrown, Label.workerCancelled i, ?_, rfl⟩
    simp only [closeChoice, stepM, hget]
    rw [if_pos hc]
  | exitedOk => cases hne
  | exitedThrown => cases hne

theorem roundSettled_of_noPending (s : MState) (h : pendingCount s = 0) :
    roundSettled s = true := by
  have hall : ∀ w ∈ curWorkers s, isExited w = true := by
    intro w hw
    by_contra hne
    rw [Bool.not_eq_true] at hne
    have : w ∈ (curWorkers s).filter (fun w => !isExited w) := by
      rw [List.mem_filter]
      exact ⟨hw, by rw [hne]; rfl⟩
    unfold pendingCount at h
    rw [List.length_eq_zero] at h
    rw [h] at this
    cases this
  unfold roundSettled
  by_cases hany : (curWorkers s).any (fun w => w == WStatus.exitedThrown) = true
  · rw [hany, Bool.or_true]
  · rw [Bool.or_eq_true]
    left
    rw [List.all_eq_true]
    intro w hw
    have hex := hall w hw
    cases w with
    | exitedOk => rfl
    | exitedThrown =>
      exact absurd (List.any_eq_true.mpr ⟨_, hw, by rfl⟩) hany
    | idle => cases hex
    | presigning p r => cases hex
    | attempting p r u => cases hex
    | backoff p r => cases hex

theorem cancelled_roundEnd_step (c : Ctx) (s : MState) (hc : s.cancelled = true)
    (hph : s.phase = Phase.running) (hset : roundSettled s = true) :
    stepM c s Choice.roundEnd
      = some ({ s with phase := Phase.abortingCancel }, Label.roundEnded) := by
  simp only [stepM]
  rw [if_pos (by rw [hph, hset]; simp), if_pos hc]

theorem cancelled_doAbort_step (c : Ctx) (s : MState)
    (hph : s.phase = Phase.abortingCancel) :
    stepM c s Choice.doAbort
      = some ({ s with abortCalls := s.abortCalls + 1, phase := Phase.cancelledExit },
              Label.abortCall) := by
  simp only [stepM]
  rw [if_neg (by rw [hph]; simp), if_pos (by rw [hph]; simp)]

/-- From a cancelled `running` state the scheduler can always settle the
remaining workers and reach the cancelled abort. -/
theorem cancelled_running_liveness (c : Ctx) (hwf : wfCtx c) : ∀ (k : Nat) (s : MState),
    MInv c s → s.cancelled = true → s.phase = Phase.running → pendingCount s = k →
    ∃ ext, (runC c s ext).1.phase = Phase.cancelledExit
      ∧ (runC c s ext).1.abortCalls = 1 ∧ (runC c s ext).1.completeCalls = 0 := by
  intro k
  induction k using Nat.strong_induction_on with
  | _ k ih =>
    intro s hInv hc hph hk
    rcases Nat.eq_zero_or_pos k with hk0 | hkpos
    · subst hk0
      have hset := roundSettled_of_noPending s hk
      have hstep1 := cancelled_roundEnd_step c s hc hph hset
      have hstep2 := cancelled_doAbort_step c { s with phase := Phase.abortingCancel } rfl
      refine ⟨[Choice.roundEnd, Choice.doAbort], ?_⟩
      simp only [runC, hstep1, hstep2]
      obtain ⟨h1, h2, h3, h4, h5, h6, h7, h8, h9⟩ := hInv
      refine ⟨trivial, ?_, ?_⟩
      · show s.abortCalls + 1 = 1
        rw [h6, hph]
        simp
      · show s.completeCalls = 0
        rw [h7, hph]
        simp
    · obtain ⟨i, w, hile, hilt, hget, hne⟩ := exists_pending s (by omega)
      obtain ⟨w', lab, hstep, hex⟩ := close_step c s i w hc hget hne
      have hgetD : s.workers.getD i WStatus.idle = w := by
        rw [List.getD_eq_getElem?_getD, ← List.get?_eq_getElem?, hget]
        rfl
      have hcount : pendingCount { s with workers := s.workers.set i w' } + 1
          = pendingCount s :=
        pendingCount_set s i w' hile hilt (by rw [hgetD]; exact hne) hex
      have hInv' : MInv c { s with workers := s.workers.set i w' } :=
        inv_step c hwf s _ (closeChoice i w) lab hInv hstep
      obtain ⟨ext, hfin⟩ := ih (k - 1) (by omega)
        { s with workers := s.workers.set i w' } hInv' hc hph (by omega)
      refine ⟨closeChoice i w :: ext, ?_⟩
      simp only [runC, hstep]
      exact hfin

/-- From any cancelled state inside the cancel funnel the scheduler can reach
the terminal cancelled state, with exactly one `abortMultipartUpload` call and
no `completeMultipartUpload` call. -/
theorem cancelled_liveness (c : Ctx) (hwf : wfCtx c) (s : MState)
    (hInv : MInv c s) (hc : s.cancelled = true) (hph : cancelFunnel s.phase) :
    ∃ ext, (runC c s ext).1.phase = Phase.cancelledExit
      ∧ (runC c s ext).1.abortCalls = 1 ∧ (runC c s ext).1.completeCalls = 0 := by
  rcases hph with hx | hx | hx
  · exact cancelled_running_liveness c hwf (pendingCount s) s hInv hc hx rfl
  · obtain ⟨h1, h2, h3, h4, h5, h6, h7, h8, h9⟩ := hInv
    refine ⟨[Choice.doAbort], ?_⟩
    have hstep := cancelled_doAbort_step c s hx
    simp only [runC, hstep]
    refine ⟨trivial, ?_, ?_⟩
    · show s.abortCalls + 1 = 1
      rw [h6, hx]
      simp
    · show s.completeCalls = 0
      rw [h7, hx]
      simp
  · obtain ⟨h1, h2, h3, h4, h5, h6, h7, h8, h9⟩ := hInv
    refine ⟨[], hx, ?_, ?_⟩
    · show s.abortCalls = 1
      rw [h6, hx]
      simp
    · show s.completeCalls = 0
      rw [h7, hx]
      simp

theorem cancel_fires (c : Ctx) (s : MState) (hnc : s.cancelled = false) :
    stepM c s Choice.cancel = some ({ s with cancelled := true }, Label.cancelSet) := by
  simp only [stepM]
  rw [if_neg (by simp [hnc])]

theorem MInv_set_cancelled (c : Ctx) (s : MState) (hInv : MInv c s) :
    MInv c { s with cancelled := true } := by
  obtain ⟨h1, h2, h3, h4, h5, h6, h7, h8, h9⟩ := hInv
  exact ⟨h1, h2, h3, h4, h5, h6, h7, h8, h9⟩

/-!
## Progress accounting
-/
theorem totalUploadedOf_eq_sum (counters : List Nat) :
    totalUploadedOf counters = counters.sum := by
  rw [totalUploadedOf, List.sum_eq_foldl]

theorem sum_le_of_pointwise : ∀ (counters : List Nat) (parts : List PartInfo),
    counters.length = parts.length →
    (∀ j, j < parts.length → counters.getD j 0 ≤ partLen (parts.getD j dummyPart)) →
    counters.sum ≤ (parts.map partLen).sum
  | [], [], _, _ => Nat.le_refl 0
  | [], p :: ps, hlen, _ => by simp at hlen
  | x :: xs, [], hlen, _ => by simp at hlen
  | x :: xs, p :: ps, hlen, hle => by
    simp only [List.sum_cons, List.map_cons]
    have h0 := hle 0 (by simp)
    rw [List.getD_cons_zero, List.getD_cons_zero] at h0
    have ih := sum_le_of_pointwise xs ps (by simpa using hlen) ?_
    · exact Nat.add_le_add h0 ih
    · intro j hj
      have hj1 := hle (j + 1) (by simp only [List.length_cons]; omega)
      rw [List.getD_cons_succ, List.getD_cons_succ] at hj1
      exact hj1

theorem jsRound_nonneg (q : ℚ) (h : 0 ≤ q) : 0 ≤ jsRound q := by
  unfold jsRound
  have h2 : (0:ℚ) ≤ q + 1/2 := by linarith
  exact Int.le_floor.mpr (by push_cast; linarith)

theorem jsRound_le_100 (q : ℚ) (h : q ≤ 100) : jsRound q ≤ 100 := by
  unfold jsRound
  have h2 : q + 1/2 < ((101 : ℤ) : ℚ) := by push_cast; linarith
  have h3 := Int.floor_lt.mpr h2
  omega

theorem planParts_partitions_witness :
    (planParts 11 4).length = totalPartsFor 11 4 :=
  (planParts_partitions 11 4 (by decide) (by decide)).1

/-- C2.  In every interleaving in which the machine reaches the completed
phase, the argument passed to `completeMultipartUpload` is the results array
sorted ascending by part number: some pushed-results list `results` exists
with the completion argument equal to `sortParts results`, which is sorted by
`partLe` and a permutation of `results`. -/
theorem completion_receives_sorted (fileSize partSize maxRetries concurrency : Nat)
    (choices : List Choice)
    (hdone : (runFromStart fileSize partSize maxRetries concurrency choices).1.phase
      = Phase.completed) :
    ∃ results,
      (runFromStart fileSize partSize maxRetries concurrency choices).1.completionArg
        = some (sortParts results)
      ∧ List.Sorted partLe (sortParts results)
      ∧ List.Perm (sortParts results) results := by
  have hInv := inv_runC (mkCtx fileSize partSize maxRetries concurrency)
    (wfCtx_mkCtx fileSize partSize maxRetries concurrency) choices _
    (inv_initState (mkCtx fileSize partSize maxRetries concurrency))
  obtain ⟨h1, h2, h3, h4, h5, h6, h7, h8, h9⟩ := hInv
  have h9s := h9 hdone
  rcases hsrc : (runFromStart fileSize partSize maxRetries concurrency choices).1.completionSrc
    with _ | results
  · rw [runFromStart] at hsrc
    rw [hsrc] at h9s
    cases h9s
  · refine ⟨results, ?_, sortParts_sorted results, sortParts_perm results⟩
    rw [runFromStart] at hsrc ⊢
    rw [h8, hsrc]
    rfl

theorem completion_receives_sorted_witness :
    ∃ results,
      (runFromStart 4 4 0 1 successSchedule).1.completionArg = some (sortParts results)
      ∧ List.Sorted partLe (sortParts results)
      ∧ List.Perm (sortParts results) results :=
  completion_receives_sorted 4 4 0 1 successSchedule (by decide)

/-- C8 counterexample.  With a configured partSize of 1 MB (below the 5 MB
store minimum) and fileSize 0 (≤ 0), the upload is not rejected: the
effective part size is silently clamped to 5 MiB and the single-shot path
proceeds with a `fPutObject` store call — a store call is made and no
invalid-configuration error exists in the code. -/
theorem small_partSize_not_rejected :
    effectivePartSizeBytes 1 = 5242880
    ∧ uploadRoute 0 (effectivePartSizeBytes 1) = [StoreCall.fPutObject]
    ∧ uploadRoute 0 (effectivePartSizeBytes 1) ≠ []
    ∧ StoreCall.initiateMultipartUpload ∉ uploadRoute 0 (effectivePartSizeBytes 1) := by
  refine ⟨by decide, by decide, by decide, by decide⟩

/-- C8 amended.  A configured partSize below the 5 MB minimum is clamped up
to exactly 5 MiB rather than rejected, the effective part size is never below
5 MiB, and a non-positive fileSize takes the single-shot path (one
`fPutObject` call, no multipart session): no invalid-configuration error is
raised in either case. -/
theorem partSize_clamped_floor (prefPartSizeMB fileSize : Int) :
    (5 * 1024 * 1024 : Int) ≤ effectivePartSizeBytes prefPartSizeMB
    ∧ (prefPartSizeMB ≤ 5 → effectivePartSizeBytes prefPartSizeMB = 5 * 1024 * 1024)
    ∧ (fileSize ≤ 0 →
        uploadRoute fileSize (effectivePartSizeBytes prefPartSizeMB) = [StoreCall.fPutObject]
        ∧ StoreCall.initiateMultipartUpload
            ∉ uploadRoute fileSize (effectivePartSizeBytes prefPartSizeMB)) := by
  have hmax : (5 : Int) ≤ max 5 prefPartSizeMB := le_max_left 5 prefPartSizeMB
  have heff : (5 * 1024 * 1024 : Int) ≤ effectivePartSizeBytes prefPartSizeMB := by
    unfold effectivePartSizeBytes
    nlinarith
  refine ⟨heff, ?_, ?_⟩
  · intro hle
    unfold effectivePartSizeBytes
    rw [max_eq_left hle]
  · intro hfs
    have hlt : fileSize < effectivePartSizeBytes prefPartSizeMB := by omega
    unfold uploadRoute
    rw [if_pos hlt]
    exact ⟨rfl, by simp⟩

theorem partSize_clamped_floor_witness :
    (1 : Int) ≤ 5
    ∧ effectivePartSizeBytes 1 = 5 * 1024 * 1024
    ∧ uploadRoute 0 (effectivePartSizeBytes 1) = [StoreCall.fPutObject] :=
  ⟨by decide, (partSize_clamped_floor 1 0).2.1 (by decide),
    ((partSize_clamped_floor 1 0).2.2 (by decide)).1⟩

/-- C9.  A file strictly below the effective part size takes the single-shot
path: the only store call is `fPutObject` and `initiateNewMultipartUpload` is
never called; conversely the multipart path (opening with
`initiateNewMultipartUpload`) is entered exactly when the file size is at
least the effective part size. -/
theorem small_file_single_shot (fileSize prefPartSizeMB : Int) :
    (fileSize < effectivePartSizeBytes prefPartSizeMB →
      uploadRoute fileSize (effectivePartSizeBytes prefPartSizeMB) = [StoreCall.fPutObject]
      ∧ StoreCall.initiateMultipartUpload
          ∉ uploadRoute fileSize (effectivePartSizeBytes prefPartSizeMB))
    ∧ (StoreCall.initiateMultipartUpload
          ∈ uploadRoute fileSize (effectivePartSizeBytes prefPartSizeMB)
        ↔ effectivePartSizeBytes prefPartSizeMB ≤ fileSize) := by
  constructor
  · intro hlt
    unfold uploadRoute
    rw [if_pos hlt]
    exact ⟨rfl, by simp⟩
  · constructor
    · intro hmem
      by_contra hnot
      have hlt : fileSize < effectivePartSizeBytes prefPartSizeMB := by omega
      unfold uploadRoute at hmem
      rw [if_pos hlt] at hmem
      rcases List.mem_cons.mp hmem with hx | hx
      · cases hx
      · cases hx
    · intro hge
      unfold uploadRoute
      rw [if_neg (by omega)]
      exact List.mem_cons_self _ _

theorem small_file_single_shot_witness :
    uploadRoute 4 (effectivePartSizeBytes 5) = [StoreCall.fPutObject]
    ∧ (StoreCall.initiateMultipartUpload ∈ uploadRoute (6 * 1024 * 1024) (effectivePartSizeBytes 5)
        ↔ effectivePartSizeBytes 5 ≤ 6 * 1024 * 1024) :=
  ⟨((small_file_single_shot 4 5).1 (by decide)).1,
    (small_file_single_shot (6 * 1024 * 1024) 5).2⟩

/-- C6.  For a part that is not cancelled: `uploadPartWithRetry` makes at
least one and at most `maxRetries + 1` attempts; before the `k+1`-st retry it
waits `(k+1) × 1000` ms (linear backoff with attempt index starting at 1 and
base delay 1000 ms); if every attempt fails, all `maxRetries + 1` attempts
are made and the final rejection carries the last attempt's error.  That
final rejection is absorbed: the worker records it in `uploadError` (phase
unchanged, nothing thrown to the caller there), and the un-cancelled
coordinator resumes from the round into the failure dialog or the completion
call, never a per-part throw. -/
theorem retry_backoff_bounds (maxRetries : Nat) (attempt : Nat → Except String String) :
    (1 ≤ (uploadPartWithRetryFn maxRetries attempt maxRetries 0).1
      ∧ (uploadPartWithRetryFn maxRetries attempt maxRetries 0).1 ≤ maxRetries + 1)
    ∧ (∀ k, k < (uploadPartWithRetryFn maxRetries attempt maxRetries 0).2.1.length →
        (uploadPartWithRetryFn maxRetries attempt maxRetries 0).2.1.getD k 0
          = (k + 1) * 1000)
    ∧ ((∀ j, ∃ m, attempt j = Except.error m) →
        (uploadPartWithRetryFn maxRetries attempt maxRetries 0).1 = maxRetries + 1
        ∧ (uploadPartWithRetryFn maxRetries attempt maxRetries 0).2.2 = attempt maxRetries)
    ∧ (∀ (c : Ctx) (s s' : MState) (i pn : Nat),
        stepM c s (Choice.attemptFail i) = some (s', Label.attemptFailFinal pn) →
        s'.uploadError = true ∧ s'.phase = s.phase ∧ s'.uploadedParts = s.uploadedParts)
    ∧ (∀ (c : Ctx) (s s' : MState), s.cancelled = false →
        stepM c s Choice.roundEnd = some (s', Label.roundEnded) →
        s'.phase = Phase.prompting ∨ s'.phase = Phase.completing) := by
  obtain ⟨sp1, sp2, sp3, sp4, sp5⟩ := uploadPartWithRetryFn_spec maxRetries attempt maxRetries 0
  refine ⟨⟨sp1, sp2⟩, ?_, ?_, ?_, ?_⟩
  · intro k hk
    have := sp4 (Nat.le_refl maxRetries) k hk
    rw [Nat.sub_self] at this
    simpa using this
  · intro hall
    obtain ⟨ha1, ha2⟩ := sp5 hall
    exact ⟨ha1, by simpa using ha2⟩
  · intro c s s' i pn h
    simp only [stepM] at h
    split at h
    · split at h
      · cases h
      · split at h
        · simp only [Option.some_inj, Prod.mk.injEq] at h
          obtain ⟨hs, hl⟩ := h
          subst hs
          exact ⟨rfl, rfl, rfl⟩
        · simp only [Option.some_inj, Prod.mk.injEq] at h
          obtain ⟨hs, hl⟩ := h
          cases hl
    · cases h
  · intro c s s' hnc h
    simp only [stepM] at h
    split at h
    · split at h
      · rename_i hcan
        rw [hnc] at hcan
        cases hcan
      · split at h
        · simp only [Option.some_inj, Prod.mk.injEq] at h
          obtain ⟨hs, hl⟩ := h
          subst hs
          exact Or.inr rfl
        · split at h
          · simp only [Option.some_inj, Prod.mk.injEq] at h
            obtain ⟨hs, hl⟩ := h
            subst hs
            exact Or.inr rfl
          · simp only [Option.some_inj, Prod.mk.injEq] at h
            obtain ⟨hs, hl⟩ := h
            subst hs
            exact Or.inl rfl
    · cases h

theorem retry_backoff_bounds_witness :
    (uploadPartWithRetryFn 3 (fun _ => Except.error "boom") 3 0).1 = 3 + 1
    ∧ (uploadPartWithRetryFn 3 (fun _ => Except.error "boom") 3 0).2.2
        = (fun _ => Except.error "boom" : Nat → Except String String) 3 :=
  (retry_backoff_bounds 3 (fun _ => Except.error "boom")).2.2.1
    (fun _ => ⟨"boom", rfl⟩)

/-- C7.  Before any retry attempt of a part begins, that part's progress
counter has been reset to 0.  (a) An in-round failure with retries left
(`attemptFailRetry`, from either a presign failure or a request failure)
zeroes `partProgress[partNumber - 1]` in the very step that schedules the
retry's backoff — before the retry attempt can start; (b) a user-approved
retry (`decideRetry`) rebuilds the queue from exactly the failed-parts
snapshot and zeroes every re-queued part's counter before the new round's
workers can pop them.  Each part owns a single counter cell which is
overwritten (never added to), so a part's bytes are not double-counted in
the aggregated progress across a retry. -/
theorem retry_resets_progress (c : Ctx) (hwf : wfCtx c) :
    (∀ (s s' : MState) (ch : Choice) (pn : Nat), MInv c s →
        stepM c s ch = some (s', Label.attemptFailRetry pn) →
        s'.partProgress.getD (pn - 1) 0 = 0
        ∧ ∃ i p r, s'.workers = s.workers.set i (WStatus.backoff p r)
            ∧ p.partNumber = pn)
    ∧ (∀ (s s' : MState), MInv c s →
        stepM c s Choice.decideRetry = some (s', Label.promptRetry) →
        s'.queue = s.failedSnapshot
        ∧ ∀ p ∈ s.failedSnapshot, s'.partProgress.getD (p.partNumber - 1) 0 = 0) := by
  constructor
  · intro s s' ch pn hInv h
    obtain ⟨h1, h2, h3, h4, h5, h6, h7, h8, h9⟩ := hInv
    cases ch
    case presignFail i =>
      simp only [stepM] at h
      split at h
      · rename_i p r hget
        split at h
        · cases h
        · split at h
          · simp only [Option.some_inj, Prod.mk.injEq] at h
            obtain ⟨hs, hl⟩ := h
            cases hl
          · rename_i r' hr
            simp only [Option.some_inj, Prod.mk.injEq] at h
            obtain ⟨hs, hl⟩ := h
            injection hl with hpn
            subst hs
            subst hpn
            have hp : p ∈ c.parts := held_mem_of_get? c s.workers i _ p h4 hget rfl
            obtain ⟨hlt, hgetD, hone⟩ := hwf p hp
            constructor
            · show (setCounter s p.partNumber 0).partProgress.getD (p.partNumber - 1) 0 = 0
              rw [setCounter_getD, if_pos ⟨rfl, by omega⟩]
            · exact ⟨i, p, _, rfl, rfl⟩
      · cases h
    case attemptFail i =>
      simp only [stepM] at h
      split at h
      · rename_i p r u hget
        split at h
        · cases h
        · split at h
          · simp only [Option.some_inj, Prod.mk.injEq] at h
            obtain ⟨hs, hl⟩ := h
            cases hl
          · rename_i r' hr
            simp only [Option.some_inj, Prod.mk.injEq] at h
            obtain ⟨hs, hl⟩ := h
            injection hl with hpn
            subst hs
            subst hpn
            have hp : p ∈ c.parts := held_mem_of_get? c s.workers i _ p h4 hget rfl
            obtain ⟨hlt, hgetD, hone⟩ := hwf p hp
            constructor
            · show (setCounter s p.partNumber 0).partProgress.getD (p.partNumber - 1) 0 = 0
              rw [setCounter_getD, if_pos ⟨rfl, by omega⟩]
            · exact ⟨i, p, _, rfl, rfl⟩
      · cases h
    all_goals
      (simp only [stepM] at h
       repeat' split at h
       all_goals first
         | exact Option.noConfusion h
         | (simp only [Option.some_inj, Prod.mk.injEq] at h
            obtain ⟨hs, hl⟩ := h
            cases hl))
  · intro s s' hInv h
    obtain ⟨h1, h2, h3, h4, h5, h6, h7, h8, h9⟩ := hInv
    simp only [stepM] at h
    split at h
    · simp only [Option.some_inj, Prod.mk.injEq] at h
      obtain ⟨hs, hl⟩ := h
      subst hs
      refine ⟨rfl, ?_⟩
      intro p hp
      show (s.failedSnapshot.foldl (fun acc q => setCounter acc q.partNumber 0)
        s).partProgress.getD (p.partNumber - 1) 0 = 0
      refine resetFold_mem_zero s.failedSnapshot s ?_ p hp
      intro q hq
      obtain ⟨hlt, _, _⟩ := hwf q (h5 q hq)
      omega
    · cases h

theorem retry_resets_progress_witness :
    ∃ s' : MState,
      stepM (mkCtx 8 4 1 1) (runFromStart 8 4 1 1 [Choice.pop 0, Choice.presignOk 0]).1
          (Choice.attemptFail 0) = some (s', Label.attemptFailRetry 1)
      ∧ s'.partProgress.getD (1 - 1) 0 = 0 := by
  refine ⟨_, rfl, ?_⟩
  exact ((retry_resets_progress (mkCtx 8 4 1 1) (wfCtx_mkCtx 8 4 1 1)).1
    (runFromStart 8 4 1 1 [Choice.pop 0, Choice.presignOk 0]).1 _
    (Choice.attemptFail 0) 1 (by decide) rfl).1

theorem reportedPercentage_clamped (fileSize t : Nat) (hfs : 0 < fileSize)
    (ht : t ≤ fileSize) :
    reportedPercentage fileSize t
      = max 0 (min 100 (jsRound (100 * (t : ℚ) / (fileSize : ℚ)))) := by
  have hfsq : (0:ℚ) < (fileSize : ℚ) := by exact_mod_cast hfs
  have hq : (t:ℚ) / (fileSize:ℚ) * 100 = 100 * (t:ℚ) / (fileSize:ℚ) := by ring
  unfold reportedPercentage
  rw [hq]
  have h0 : (0:ℚ) ≤ 100 * (t:ℚ) / (fileSize:ℚ) := by positivity
  have htq : (t:ℚ) ≤ (fileSize:ℚ) := by exact_mod_cast ht
  have hle : (100:ℚ) * (t:ℚ) / (fileSize:ℚ) ≤ 100 := by
    rw [div_le_iff₀ hfsq]
    nlinarith
  have hjn := jsRound_nonneg _ h0
  have hj100 := jsRound_le_100 _ hle
  rw [min_eq_right hj100, max_eq_right hjn]

/-- C10.  In every reachable state of the multipart machine each per-part
progress counter is at most that part's byte length, the aggregated
transferred bytes (the sum of the per-part counters, as in
`updateTotalProgress`) never exceed `fileSize`, and the reported percentage
`Math.round((totalUploaded / fileSize) * 100)` equals
`round(100 × transferred／total)` clamped to `[0, 100]` — the clamp is the
identity here because the counters are bounded. -/
theorem progress_percentage_clamped (fileSize partSize maxRetries concurrency : Nat)
    (choices : List Choice) (hfs : 0 < fileSize) (hps : 0 < partSize) :
    (∀ j, j < (mkCtx fileSize partSize maxRetries concurrency).parts.length →
        (runFromStart fileSize partSize maxRetries concurrency choices).1.partProgress.getD j 0
          ≤ partLen ((mkCtx fileSize partSize maxRetries concurrency).parts.getD j dummyPart))
    ∧ totalUploadedOf
        (runFromStart fileSize partSize maxRetries concurrency choices).1.partProgress
        ≤ fileSize
    ∧ reportedPercentage fileSize
        (totalUploadedOf
          (runFromStart fileSize partSize maxRetries concurrency choices).1.partProgress)
      = max 0 (min 100 (jsRound (100 * ((totalUploadedOf
          (runFromStart fileSize partSize maxRetries concurrency choices).1.partProgress : ℚ))
          / (fileSize : ℚ)))) := by
  have hInv := inv_runC (mkCtx fileSize partSize maxRetries concurrency)
    (wfCtx_mkCtx fileSize partSize maxRetries concurrency) choices _
    (inv_initState (mkCtx fileSize partSize maxRetries concurrency))
  obtain ⟨h1, h2, h3, h4, h5, h6, h7, h8, h9⟩ := hInv
  have htot : totalUploadedOf
      (runFromStart fileSize partSize maxRetries concurrency choices).1.partProgress
      ≤ fileSize := by
    rw [totalUploadedOf_eq_sum]
    have hsum := sum_le_of_pointwise
      (runFromStart fileSize partSize maxRetries concurrency choices).1.partProgress
      (mkCtx fileSize partSize maxRetries concurrency).parts h1 h2
    have hparts : ((mkCtx fileSize partSize maxRetries concurrency).parts.map partLen).sum
        = fileSize := planParts_sum fileSize partSize hps
    rw [hparts] at hsum
    exact hsum
  exact ⟨h2, htot, reportedPercentage_clamped fileSize _ hfs htot⟩

theorem progress_percentage_clamped_witness :
    totalUploadedOf
        (runFromStart 8 4 0 1 [Choice.pop 0, Choice.presignOk 0,
          Choice.writeProgress 0 3]).1.partProgress ≤ 8
    ∧ reportedPercentage 8
        (totalUploadedOf (runFromStart 8 4 0 1 [Choice.pop 0, Choice.presignOk 0,
          Choice.writeProgress 0 3]).1.partProgress)
      = max 0 (min 100 (jsRound (100 * ((totalUploadedOf
          (runFromStart 8 4 0 1 [Choice.pop 0, Choice.presignOk 0,
            Choice.writeProgress 0 3]).1.partProgress : ℚ)) / (8 : ℚ)))) :=
  ⟨(progress_percentage_clamped 8 4 0 1 [Choice.pop 0, Choice.presignOk 0,
      Choice.writeProgress 0 3] (by decide) (by decide)).2.1,
   (progress_percentage_clamped 8 4 0 1 [Choice.pop 0, Choice.presignOk 0,
      Choice.writeProgress 0 3] (by decide) (by decide)).2.2⟩

/-- C3.  If cancellation is signaled while the coordinator has parts in
flight (phase `running`): afterwards no part is popped, no upload attempt is
started and no part result is added to the completed set (no `popped`,
`attemptStart` or `resultAdded` label occurs after `cancelSet`), the
completed set is frozen, `completeMultipartUpload` is never called, the
session cannot reach the user-abort or completed terminals — any terminal
reached is the cancelled exit, carrying exactly one `abortMultipartUpload`
call — and the scheduler can always drive the session to that cancelled
exit, with exactly one abort call and no completion call. -/
theorem cancellation_halts_uploads (fileSize partSize maxRetries concurrency : Nat)
    (pre post : List Choice) (A B : MState × List Label)
    (hA : runFromStart fileSize partSize maxRetries concurrency pre = A)
    (hph : A.1.phase = Phase.running) (hnc : A.1.cancelled = false)
    (hB : runC (mkCtx fileSize partSize maxRetries concurrency)
        { A.1 with cancelled := true } post = B) :
    (runFromStart fileSize partSize maxRetries concurrency
        (pre ++ Choice.cancel :: post)).2 = A.2 ++ Label.cancelSet :: B.2
    ∧ (runFromStart fileSize partSize maxRetries concurrency
        (pre ++ Choice.cancel :: post)).1 = B.1
    ∧ (∀ l ∈ B.2, startsOrAdds l = false)
    ∧ B.1.uploadedParts = A.1.uploadedParts
    ∧ B.1.phase ≠ Phase.abortedExit
    ∧ B.1.phase ≠ Phase.completed
    ∧ B.1.completeCalls = 0
    ∧ (B.1.phase = Phase.cancelledExit → B.1.abortCalls = 1)
    ∧ ∃ ext,
        (runC (mkCtx fileSize partSize maxRetries concurrency) B.1 ext).1.phase
          = Phase.cancelledExit
        ∧ (runC (mkCtx fileSize partSize maxRetries concurrency) B.1 ext).1.abortCalls = 1
        ∧ (runC (mkCtx fileSize partSize maxRetries concurrency) B.1 ext).1.completeCalls
            = 0 := by
  subst hA
  subst hB
  simp only [runFromStart] at hph hnc ⊢
  have hwf := wfCtx_mkCtx fileSize partSize maxRetries concurrency
  have hInvA : MInv (mkCtx fileSize partSize maxRetries concurrency)
      (runC (mkCtx fileSize partSize maxRetries concurrency)
        (initState (mkCtx fileSize partSize maxRetries concurrency)) pre).1 :=
    inv_runC _ hwf pre _ (inv_initState _)
  have hInvA' := MInv_set_cancelled _ _ hInvA
  have hfire := cancel_fires (mkCtx fileSize partSize maxRetries concurrency) _ hnc
  obtain ⟨hBc, hBlab, hBup⟩ :=
    cancelled_run (mkCtx fileSize partSize maxRetries concurrency) post
      { (runC (mkCtx fileSize partSize maxRetries concurrency)
          (initState (mkCtx fileSize partSize maxRetries concurrency)) pre).1 with
        cancelled := true } rfl
  have hfun : cancelFunnel
      (runC (mkCtx fileSize partSize maxRetries concurrency)
        { (runC (mkCtx fileSize partSize maxRetries concurrency)
            (initState (mkCtx fileSize partSize maxRetries concurrency)) pre).1 with
          cancelled := true } post).1.phase :=
    cancelled_funnel_run _ post _ rfl (Or.inl hph)
  have hInvB : MInv (mkCtx fileSize partSize maxRetries concurrency)
      (runC (mkCtx fileSize partSize maxRetries concurrency)
        { (runC (mkCtx fileSize partSize maxRetries concurrency)
            (initState (mkCtx fileSize partSize maxRetries concurrency)) pre).1 with
          cancelled := true } post).1 :=
    inv_runC _ hwf post _ hInvA'
  have hcomb := runC_append (mkCtx fileSize partSize maxRetries concurrency)
    pre (Choice.cancel :: post)
    (initState (mkCtx fileSize partSize maxRetries concurrency))
  have hcons : runC (mkCtx fileSize partSize maxRetries concurrency)
      (runC (mkCtx fileSize partSize maxRetries concurrency)
        (initState (mkCtx fileSize partSize maxRetries concurrency)) pre).1
      (Choice.cancel :: post)
      = ((runC (mkCtx fileSize partSize maxRetries concurrency)
          { (runC (mkCtx fileSize partSize maxRetries concurrency)
              (initState (mkCtx fileSize partSize maxRetries concurrency)) pre).1 with
            cancelled := true } post).1,
         Label.cancelSet ::
          (runC (mkCtx fileSize partSize maxRetries concurrency)
            { (runC (mkCtx fileSize partSize maxRetries concurrency)
                (initState (mkCtx fileSize partSize maxRetries concurrency)) pre).1 with
              cancelled := true } post).2) := by
    simp only [runC, hfire]
  obtain ⟨b1, b2, b3, b4, b5, b6, b7, b8, b9⟩ := hInvB
  refine ⟨?_, ?_, hBlab, hBup, ?_, ?_, ?_, ?_, ?_⟩
  · rw [hcomb, hcons]
  · rw [hcomb, hcons]
  · rcases hfun with hx | hx | hx <;> rw [hx] <;> simp
  · rcases hfun with hx | hx | hx <;> rw [hx] <;> simp
  · rw [b7]
    rcases hfun with hx | hx | hx <;> rw [hx] <;> simp
  · intro hx
    rw [b6, hx]
    simp
  · exact cancelled_liveness _ hwf _ ⟨b1, b2, b3, b4, b5, b6, b7, b8, b9⟩ hBc hfun

theorem cancellation_halts_uploads_witness :
    (runC (mkCtx 4 4 0 1) { (runFromStart 4 4 0 1 []).1 with cancelled := true }
        [Choice.workerExit 0, Choice.roundEnd, Choice.doAbort]).1.completeCalls = 0
    ∧ ((runC (mkCtx 4 4 0 1) { (runFromStart 4 4 0 1 []).1 with cancelled := true }
        [Choice.workerExit 0, Choice.roundEnd, Choice.doAbort]).1.phase
          = Phase.cancelledExit →
        (runC (mkCtx 4 4 0 1) { (runFromStart 4 4 0 1 []).1 with cancelled := true }
          [Choice.workerExit 0, Choice.roundEnd, Choice.doAbort]).1.abortCalls = 1) := by
  have h := cancellation_halts_uploads 4 4 0 1 []
    [Choice.workerExit 0, Choice.roundEnd, Choice.doAbort]
    (runFromStart 4 4 0 1 [])
    (runC (mkCtx 4 4 0 1) { (runFromStart 4 4 0 1 []).1 with cancelled := true }
      [Choice.workerExit 0, Choice.roundEnd, Choice.doAbort])
    rfl (by decide) (by decide) rfl
  exact ⟨h.2.2.2.2.2.2.1, h.2.2.2.2.2.2.2.1⟩

/-- C4 (failing execution).  Because `Promise.all` settles at the first
worker rejection, the failure snapshot can be taken while a part is still in
flight; that part is then re-queued and uploaded twice, and the next failure
dialog reports `completedPartsCount = 2` and `failedPartsCount = 2` with
`totalParts = 3` — the counts no longer satisfy
`completedCount + failedCount = totalCount`, and part 2 appears twice in the
results array handed to completion. -/
theorem failure_prompt_miscount :
    (runFromStart 12 4 0 2 c4Schedule).1.phase = Phase.prompting
    ∧ (runFromStart 12 4 0 2 c4Schedule).1.lastPrompt = some (2, 3, 2)
    ∧ (runFromStart 12 4 0 2 c4Schedule).1.uploadedParts.map (fun r => r.part) = [2, 2]
    ∧ 2 + 2 ≠ 3 := by
  refine ⟨by decide, by decide, by decide, by decide⟩

/-- C5 counterexample.  The claim says that after one worker records a
non-cancellation failure the other workers keep draining the remaining
queue; in this complete round they do not: after the `attemptFailFinal`
event (position 4 of the trace) no `popped` event ever occurs — the worker
loop's `!uploadError` guard stops every worker from pulling new work — and
the round ends (`roundEnded`, the dialog opens) with part 3 still queued. -/
theorem error_leaves_queue_undrained :
    (runFromStart 12 4 0 2 c5Schedule).2
      = [Label.popped 1, Label.popped 2, Label.attemptStart 1, Label.attemptStart 2,
         Label.attemptFailFinal 1, Label.roundEnded, Label.progressed 2 4,
         Label.resultAdded 2, Label.workerExited 1]
    ∧ (runFromStart 12 4 0 2 c5Schedule).1.phase = Phase.prompting
    ∧ (runFromStart 12 4 0 2 c5Schedule).1.uploadError = true
    ∧ (runFromStart 12 4 0 2 c5Schedule).1.queue
        = [{ partNumber := 3, start := 8, stop := 12 }]
    ∧ ((runFromStart 12 4 0 2 c5Schedule).2.drop 5).all
        (fun l => !isPoppedLabel l) = true := by
  refine ⟨by decide, by decide, by decide, by decide, by decide⟩

/-- C5 amended.  When a worker's part finally fails (retries exhausted), that
step records the error (`uploadError := true`) and the worker's promise
rejects; while `uploadError` is recorded no worker — neither the failing one
nor any other — pops new work, because every worker's loop guard includes
`!uploadError`; a worker whose part is already in flight may still finish it
and push its result.  The remaining queue is left undrained until the user
decides on the failure dialog. -/
theorem workers_stop_after_error (c : Ctx) :
    (∀ (s s' : MState) (i : Nat) (l : Label),
        stepM c s (Choice.pop i) = some (s', l) → s.uploadError = false)
    ∧ (∀ (s s' : MState) (i pn : Nat),
        stepM c s (Choice.attemptFail i) = some (s', Label.attemptFailFinal pn) →
        s'.uploadError = true ∧ s'.workers = s.workers.set i WStatus.exitedThrown)
    ∧ (∀ (s : MState) (i : Nat) (e : String) (p : PartInfo) (r : Nat),
        s.workers.get? i = some (WStatus.attempting p r (partLen p)) →
        s.cancelled = false →
        ∃ s', stepM c s (Choice.attemptSucceed i e)
            = some (s', Label.resultAdded p.partNumber)
          ∧ s'.uploadedParts = s.uploadedParts ++ [{ part := p.partNumber, etag := e }]) := by
  refine ⟨?_, ?_, ?_⟩
  · intro s s' i l h
    simp only [stepM] at h
    split at h
    · split at h
      · cases h
      · rename_i hneg
        simp only [Bool.or_eq_true, not_or, Bool.not_eq_true] at hneg
        exact hneg.2
    · cases h
  · intro s s' i pn h
    simp only [stepM] at h
    split at h
    · split at h
      · cases h
      · split at h
        · simp only [Option.some_inj, Prod.mk.injEq] at h
          obtain ⟨hs, hl⟩ := h
          subst hs
          exact ⟨rfl, rfl⟩
        · simp only [Option.some_inj, Prod.mk.injEq] at h
          obtain ⟨hs, hl⟩ := h
          cases hl
    · cases h
  · intro s i e p r hget hnc
    refine ⟨{ s with
        uploadedParts := s.uploadedParts ++ [{ part := p.partNumber, etag := e }],
        workers := s.workers.set i WStatus.idle }, ?_, rfl⟩
    simp only [stepM, hget]
    rw [if_neg (by rw [hnc]; exact Bool.false_ne_true)]
    simp

theorem workers_stop_after_error_witness :
    (initState (mkCtx 4 4 0 1)).uploadError = false :=
  (workers_stop_after_error (mkCtx 4 4 0 1)).1 (initState (mkCtx 4 4 0 1)) _ 0 _ rfl
